import Mathlib

/-!
# makes: the target-extraction parser of `cmd/makes/main.go`

A shallow embedding of the parsing part of `run` (lines 103-182 of
`cmd/makes/main.go`) together with the `RawTarget` methods it calls and the
closure `searcher` (lines 200-206), and the properties of the written
specification that hold (or fail) on it.

Modelling conventions.

* A Go `string` is modelled as a list of characters (`Str`).  The dump and the
  Makefile are taken to be valid UTF-8 text, so that the byte-wise functions of
  package `strings` used here (`Split`, `Contains`, `HasPrefix`, `Replace`)
  agree with their character-wise counterparts.
* A `bufio.Scanner` with `bufio.ScanLines` is modelled by the results of its
  successive calls of `Scan()` (`scanCalls`): a line of `MaxScanTokenSize`
  (64 KiB) bytes or more makes `Scan()` return false, `run` never reading
  `scanner.Err()`.  A loop `for scanner.Scan()` reads the texts of the calls
  before the first that returns false (`readLoop`, `scanLines`).
* Indexing a slice is modelled by total list access; the accessed positions are
  those of the source.
* `time.ParseInLocation` is a parameter `parse` of `LastUpdate` and `run`;
  `parseInLocation` is a model of it for the one layout the program uses.
* `unicode.ToLower` is a parameter `lower` of `strings.ToLower` and `searcher`.
-/

deriving instance DecidableEq for Except

namespace MakeSelect

/-- A Go string. -/
abbrev Str := List Char

/-! ## Package `strings` -/

/-- `strings.HasPrefix(s, pre)`. -/
def strings.HasPrefix (s pre : Str) : Bool := pre.isPrefixOf s

/-- `strings.Contains(s, substr)`: some suffix of `s` starts with `substr`. -/
def strings.Contains : Str → Str → Bool
  | [], substr => substr.isPrefixOf []
  | c :: cs, substr => substr.isPrefixOf (c :: cs) || strings.Contains cs substr

/-- The loop of `strings.Split` for a non-empty separator: the text is cut at
each occurrence of `sep` found from left to right, the search resuming after
the occurrence (`skip` counts the characters of the occurrence still to be
passed over). -/
def strings.Split.go (sep : Str) : Nat → Str → List Str
  | _, [] => [[]]
  | skip + 1, _ :: cs => strings.Split.go sep skip cs
  | 0, c :: cs =>
    if sep.isPrefixOf (c :: cs) then [] :: strings.Split.go sep (sep.length - 1) cs
    else
      match strings.Split.go sep 0 cs with
      | [] => [[c]]
      | p :: ps => (c :: p) :: ps

/-- `strings.Split(s, sep)` for a non-empty separator `sep`. -/
def strings.Split (s sep : Str) : List Str := strings.Split.go sep 0 s

/-- `strings.Replace(s, old, new, 1)` for a non-empty `old`: the first
occurrence of `old` in `s` is replaced by `new`. -/
def strings.Replace1 (old new : Str) : Str → Str
  | [] => []
  | c :: cs =>
    if old.isPrefixOf (c :: cs) then new ++ (c :: cs).drop old.length
    else c :: strings.Replace1 old new cs

/-- `unicode.IsSpace`: the characters with the Unicode White_Space property. -/
def unicode.IsSpace (c : Char) : Bool :=
  c = '\t' || c = '\n' || c.toNat = 0x0B || c.toNat = 0x0C || c = '\r' || c = ' ' ||
  c.toNat = 0x85 || c.toNat = 0xA0 || c.toNat = 0x1680 ||
  (0x2000 ≤ c.toNat && c.toNat ≤ 0x200A) ||
  c.toNat = 0x2028 || c.toNat = 0x2029 || c.toNat = 0x202F || c.toNat = 0x205F ||
  c.toNat = 0x3000

/-- `strings.TrimSpace(s)`: leading and trailing white space removed. -/
def strings.TrimSpace (s : Str) : Str :=
  ((s.dropWhile unicode.IsSpace).reverse.dropWhile unicode.IsSpace).reverse

/-! ## Package `bufio` -/

/-- `dropCR` of package `bufio`: one trailing carriage return is dropped. -/
def dropCR (data : Str) : Str :=
  if data.getLast? = some '\r' then data.dropLast else data

/-- `bufio.MaxScanTokenSize`: the size the buffer of a `bufio.Scanner` does not
exceed. -/
def MaxScanTokenSize : Nat := 64 * 1024

/-- The length in bytes of a text. -/
def utf8Len (s : Str) : Nat := (s.map Char.utf8Size).sum

/-- The leading characters of a text that lie whole within its first `n`
bytes. -/
def takeBytes : Nat → Str → Str
  | _, [] => []
  | n, c :: cs => if c.utf8Size ≤ n then c :: takeBytes (n - c.utf8Size) cs else []

/-- The results of the successive calls of `scanner.Scan()` on the text `data`
split by `bufio.ScanLines`, `cur` being the part of the current line already
read: `some text` for a call that returns true with `scanner.Text() = text`,
`none` for a call that returns false; every call after the listed ones returns
false.  A line ends at a newline, a final line without newline is a token when
it is not empty.  On a line of `MaxScanTokenSize` bytes or more the buffer is
full before the line ends: the call returns false (`ErrTooLong`), the next call
hands out the content of the buffer as a token, and the scan is over.  That
token is modelled by the characters that lie whole in the buffer; `run` only
compares it with the marker line or discards it. -/
def scanCalls.go : Str → Str → List (Option Str)
  | cur, [] =>
    if cur = [] then []
    else if utf8Len cur < MaxScanTokenSize then [some (dropCR cur)]
    else [none, some (dropCR (takeBytes MaxScanTokenSize cur))]
  | cur, c :: cs =>
    if c = '\n' then
      if utf8Len cur < MaxScanTokenSize then some (dropCR cur) :: scanCalls.go [] cs
      else [none, some (dropCR (takeBytes MaxScanTokenSize cur))]
    else scanCalls.go (cur ++ [c]) cs

/-- The results of the successive calls of `scanner.Scan()` for a scanner on
`data` split by `bufio.ScanLines`. -/
def scanCalls (data : Str) : List (Option Str) := scanCalls.go [] data

/-- The texts a loop `for scanner.Scan()` goes through, from the results of the
calls to come: those of the calls before the first that returns false. -/
def readLoop : List (Option Str) → List Str
  | some l :: calls => l :: readLoop calls
  | _ => []

/-- The successive values of `scanner.Text()` in a loop `for scanner.Scan()`
on a fresh scanner on `data`: the lines of `data` up to its end or to the
first line of `MaxScanTokenSize` bytes or more. -/
def scanLines (data : Str) : List Str := readLoop (scanCalls data)

/-! ## Package `time` -/

/-- The location of a `time.Time`. -/
inductive Location
  | UTC
  | Local
  deriving DecidableEq, Repr

/-- A `time.Time`, as the civil date and clock reading it was built from
together with its location. -/
structure Time where
  year : Nat
  month : Nat
  day : Nat
  hour : Nat
  min : Nat
  sec : Nat
  nsec : Nat
  loc : Location
  deriving DecidableEq, Repr

/-- The zero value `time.Time{}`: January 1, year 1, 00:00:00 UTC. -/
def Time.zero : Time := ⟨1, 1, 1, 0, 0, 0, 0, Location.UTC⟩

/-- The errors `run` returns. -/
inductive Error
  /-- `errors.New("unexpected EOF")` -/
  | unexpectedEOF
  /-- a `*time.ParseError` for the text `value` -/
  | parseError (value : Str)
  /-- an error of `exec` or `os` -/
  | system (msg : Str)
  deriving DecidableEq, Repr

/-- `isDigit` of package `time`. -/
def time.isDigit (c : Char) : Bool := decide ('0'.toNat ≤ c.toNat ∧ c.toNat ≤ '9'.toNat)

/-- The value of a decimal digit. -/
def time.digit (c : Char) : Nat := c.toNat - '0'.toNat

/-- `getnum` of package `time`: a number of one or two digits (`fixed`: of
exactly two) at the head of `s`, and the rest of `s`. -/
def time.getnum (s : Str) (fixed : Bool) : Option (Nat × Str) :=
  match s with
  | [] => none
  | [a] => if time.isDigit a && !fixed then some (time.digit a, []) else none
  | a :: b :: rest =>
    if !time.isDigit a then none
    else if time.isDigit b then some (time.digit a * 10 + time.digit b, rest)
    else if fixed then none
    else some (time.digit a, b :: rest)

/-- `skip(value, lit)` of package `time` for a one-character literal other than
a space. -/
def time.skipChar (lit : Char) : Str → Option Str
  | [] => none
  | c :: rest => if c = lit then some rest else none

/-- `skip(value, " ")` of package `time`: a space of the layout stands for any
number of spaces of the value, which may not start with anything else. -/
def time.skipSpace : Str → Option Str
  | [] => some []
  | c :: rest => if c = ' ' then some ((c :: rest).dropWhile (· = ' ')) else none

/-- `daysIn(month, year)` of package `time`. -/
def time.daysIn (month year : Nat) : Nat :=
  if month = 2 then (if year % 4 = 0 ∧ (year % 100 ≠ 0 ∨ year % 400 = 0) then 29 else 28)
  else if month = 4 ∨ month = 6 ∨ month = 9 ∨ month = 11 then 30
  else 31

/-- The fractional second that `time.Parse` accepts after the seconds when the
layout has none: a period or comma and at least one digit, of which the first
nine count.  Returns the nanoseconds and the rest of the value. -/
def time.fraction (value : Str) : Nat × Str :=
  match value with
  | p :: d :: rest =>
    if (p = '.' || p = ',') && time.isDigit d then
      let digits := (d :: rest).takeWhile time.isDigit
      let kept := digits.take 9
      (kept.foldl (fun n c => n * 10 + time.digit c) 0 * 10 ^ (9 - kept.length),
        (d :: rest).dropWhile time.isDigit)
    else (0, value)
  | _ => (0, value)

/-- The fields `time.Parse` reads from `value` under the layout
`"2006-01-02 15:04:05"`, when it accepts `value`. -/
def time.parseFields (value : Str) : Option Time :=
  match value with
  | y1 :: y2 :: y3 :: y4 :: v1 =>
    if !(time.isDigit y1 && time.isDigit y2 && time.isDigit y3 && time.isDigit y4) then none
    else
      let year := ((time.digit y1 * 10 + time.digit y2) * 10 + time.digit y3) * 10 + time.digit y4
      match time.skipChar '-' v1 with
      | none => none
      | some v2 =>
      match time.getnum v2 true with
      | none => none
      | some (month, v3) =>
      if month = 0 ∨ 12 < month then none else
      match time.skipChar '-' v3 with
      | none => none
      | some v4 =>
      match time.getnum v4 true with
      | none => none
      | some (day, v5) =>
      match time.skipSpace v5 with
      | none => none
      | some v6 =>
      match time.getnum v6 false with
      | none => none
      | some (hour, v7) =>
      if 24 ≤ hour then none else
      match time.skipChar ':' v7 with
      | none => none
      | some v8 =>
      match time.getnum v8 true with
      | none => none
      | some (min, v9) =>
      if 60 ≤ min then none else
      match time.skipChar ':' v9 with
      | none => none
      | some v10 =>
      match time.getnum v10 true with
      | none => none
      | some (sec, v11) =>
      if 60 ≤ sec then none else
      match time.fraction v11 with
      | (nsec, v12) =>
      if v12 ≠ [] then none
      else if day < 1 ∨ time.daysIn month year < day then none
      else some ⟨year, month, day, hour, min, sec, nsec, Location.Local⟩
  | _ => none

/-- A model of `time.ParseInLocation("2006-01-02 15:04:05", value, time.Local)`.
The `Time` it returns keeps the civil reading that was parsed; for a reading
inside a daylight-saving gap of the local zone the library returns the
normalised instant. -/
def parseInLocation (value : Str) : Except Error Time :=
  match time.parseFields value with
  | some t => Except.ok t
  | none => Except.error (Error.parseError value)

/-! ## `cmd/makes/main.go` -/

structure Target where
  Name : Str
  Help : Str
  IsPhony : Bool
  Updated : Time
  deriving DecidableEq, Repr

/-- The type `RawTarget`; a nil `Lines` and an empty one are both `[]`. -/
structure RawTarget where
  Lines : List Str
  Help : Str
  deriving DecidableEq, Repr

/-- Method `RawTarget.Name`. -/
def RawTarget.Name (t : RawTarget) : Str :=
  match t.Lines with
  | [] => "# Not a target:".toList
  | l :: _ =>
    let parts := strings.Split l ":".toList
    parts.headD []

/-- Method `RawTarget.IsPhony`. -/
def RawTarget.IsPhony (t : RawTarget) : Bool :=
  t.Lines.any fun l => strings.Contains l "Phony target (prerequisite of .PHONY)".toList

/-- Lines 86-87 of `RawTarget.LastUpdate`: the text `date` built from the line
`l`. -/
def RawTarget.LastUpdate.date (l : Str) : Str :=
  let parts := strings.Split l " ".toList
  parts.getD (parts.length - 2) [] ++ " ".toList ++ parts.getD (parts.length - 1) []

/-- The loop of `RawTarget.LastUpdate` over the lines of the block. -/
def RawTarget.LastUpdate.go (parse : Str → Except Error Time) : List Str → Except Error Time
  | [] => Except.ok Time.zero
  | l :: ls =>
    if strings.Contains l "Last modified".toList then parse (RawTarget.LastUpdate.date l)
    else RawTarget.LastUpdate.go parse ls

/-- Method `RawTarget.LastUpdate`, `parse` standing for
`time.ParseInLocation("2006-01-02 15:04:05", ·, time.Local)`. -/
def RawTarget.LastUpdate (parse : Str → Except Error Time) (t : RawTarget) : Except Error Time :=
  RawTarget.LastUpdate.go parse t.Lines

/-- The comment index `comments` of `run`, a `map[string]string`. -/
abbrev Comments := Str → Option Str

/-- The assignment `comments[key] = value`. -/
def Comments.set (comments : Comments) (key value : Str) : Comments :=
  fun k => if k = key then some value else comments k

/-- The loop `// skip to files section` of `run`, from the results of the calls
of `Scan()` to come: the results left for the calls after the loop.  The loop
ends on the marker line or on a call that returns false. -/
def skipToFiles : List (Option Str) → List (Option Str)
  | [] => []
  | none :: calls => calls
  | some l :: calls => if l ≠ "# Files".toList then skipToFiles calls else calls

/-- The loop `// read targets` of `run` over the texts the loop goes through,
with the loop variables `target` and `rtargets`. -/
def readTargets : List Str → RawTarget → List RawTarget → List RawTarget
  | [], _, rtargets => rtargets
  | line :: ls, target, rtargets =>
    if line.length = 0 then
      if strings.HasPrefix target.Name "#".toList then readTargets ls ⟨[], []⟩ rtargets
      else if strings.HasPrefix target.Name ".PHONY".toList then readTargets ls ⟨[], []⟩ rtargets
      else readTargets ls ⟨[], []⟩ (rtargets ++ [target])
    else readTargets ls ⟨target.Lines ++ [line], target.Help⟩ rtargets

/-- Lines 103-143 of `run`: the version string and `rtargets`, from the output
`out` of `make -n -p`.  The first call of `Scan()` gives the version line, the
skip loop uses the calls up to the marker line, one more call must return
true, and the calls after it feed the loop that reads the targets. -/
def scan (out : Str) : Except Error (Str × List RawTarget) :=
  let calls := scanCalls out
  let version : Str :=
    match calls with
    | some l :: _ => strings.Replace1 "# ".toList [] l
    | _ => []
  match skipToFiles calls.tail with
  | some _ :: rest => Except.ok (version, readTargets (readLoop rest) ⟨[], []⟩ [])
  | _ => Except.error Error.unexpectedEOF

/-- The loop of lines 152-161 of `run` over the lines of the Makefile. -/
def readComments : List Str → Comments → Comments
  | [], comments => comments
  | line :: ls, comments =>
    if strings.Contains line "##".toList then
      let parts := strings.Split line ":".toList
      if parts.length ≠ 2 then readComments ls comments
      else readComments ls (comments.set (parts.getD 0 []) (parts.getD 1 []))
    else readComments ls comments

/-- The help text lines 171-175 of `run` give the target `name`. -/
def helpOf (comments : Comments) (name : Str) : Str :=
  match comments name with
  | some c =>
    let parts := strings.Split c "##".toList
    strings.TrimSpace (parts.getD (parts.length - 1) [])
  | none => []

/-- The loop of lines 165-182 of `run` over `rtargets`, with the loop variable
`targets`. -/
def assemble (parse : Str → Except Error Time) (comments : Comments) :
    List RawTarget → List Target → Except Error (List Target)
  | [], targets => Except.ok targets
  | t :: ts, targets =>
    let name := t.Name
    match t.LastUpdate parse with
    | Except.error err => Except.error err
    | Except.ok updated =>
      assemble parse comments ts (targets ++ [⟨name, helpOf comments name, t.IsPhony, updated⟩])

/-- Lines 103-182 of `run`: the version string and the list `targets`, from the
output `out` of `make -n -p` and the result `file` of opening and reading
`Makefile`. -/
def run (parse : Str → Except Error Time) (out : Str) (file : Except Error Str) :
    Except Error (Str × List Target) :=
  match scan out with
  | Except.error err => Except.error err
  | Except.ok (version, rtargets) =>
    match file with
    | Except.error err => Except.error err
    | Except.ok content =>
      let comments := readComments (scanLines content) (fun _ => none)
      match assemble parse comments rtargets [] with
      | Except.error err => Except.error err
      | Except.ok targets => Except.ok (version, targets)

/-- Lines 104 and 110-112 of `run`: the string `version`, from the output `out`
of `make -n -p`. -/
def version (out : Str) : Str :=
  match scanLines out with
  | [] => []
  | l :: _ => strings.Replace1 "# ".toList [] l

/-- The loop of `strings.Replace(s, old, new, -1)` for a non-empty `old`: every
occurrence of `old` met from left to right is replaced by `new`, the search
resuming after the occurrence (`skip` counts the characters of the occurrence
still to be passed over). -/
def strings.ReplaceAll.go (old new : Str) : Nat → Str → Str
  | _, [] => []
  | skip + 1, _ :: cs => strings.ReplaceAll.go old new skip cs
  | 0, c :: cs =>
    if old.isPrefixOf (c :: cs) then new ++ strings.ReplaceAll.go old new (old.length - 1) cs
    else c :: strings.ReplaceAll.go old new 0 cs

/-- `strings.Replace(s, old, new, -1)` for a non-empty `old`. -/
def strings.ReplaceAll (s old new : Str) : Str := strings.ReplaceAll.go old new 0 s

/-- `strings.ToLower(s)` on valid UTF-8 text, `lower` standing for
`unicode.ToLower`. -/
def strings.ToLower (lower : Char → Char) (s : Str) : Str := s.map lower

/-- The closure `searcher` of `run` (lines 200-206) over the list `targets`;
`none` is the panic of `targets[index]` for an index out of range. -/
def searcher (lower : Char → Char) (targets : List Target) (input : Str) (index : Nat) :
    Option Bool :=
  match targets[index]? with
  | none => none
  | some pepper =>
    let name := strings.ReplaceAll (strings.ToLower lower pepper.Name) " ".toList []
    let input := strings.ReplaceAll (strings.ToLower lower input) " ".toList []
    some (strings.Contains name input)

/-! ## Notions of the specification -/

/-- The marker line of the files section. -/
def filesMarker : Str := "# Files".toList

/-- The filtering policy of the specification: a block is kept when its name
starts with neither `#` nor `.PHONY`. -/
def kept (b : RawTarget) : Bool :=
  !strings.HasPrefix b.Name "#".toList && !strings.HasPrefix b.Name ".PHONY".toList

/-- The lines of a target section made of the blocks `bs`, each closed by a
blank line, followed by the lines `tail` of an unterminated block. -/
def sectionLines (bs : List (List Str)) (tail : List Str) : List Str :=
  (bs.map fun b => b ++ [[]]).flatten ++ tail

/-- The block of lines `b` as the scanner builds it. -/
def block (b : List Str) : RawTarget := ⟨b, []⟩

/-- The whitespace-separated tokens of a text, `cur` being the token under way. -/
def fields.go : Str → Str → List Str
  | cur, [] => if cur = [] then [] else [cur]
  | cur, c :: cs =>
    if unicode.IsSpace c then (if cur = [] then fields.go [] cs else cur :: fields.go [] cs)
    else fields.go (cur ++ [c]) cs

/-- The whitespace-separated tokens of a text. -/
def fields (s : Str) : List Str := fields.go [] s

/-- The last two whitespace-separated tokens of a line joined by one space. -/
def lastTwoFields (l : Str) : Str :=
  let fs := fields l
  fs.getD (fs.length - 2) [] ++ " ".toList ++ fs.getD (fs.length - 1) []

/-- The text that follows the last occurrence of `sep` in a text, the whole
text when `sep` does not occur in it. -/
def afterLast (sep : Str) : Str → Str
  | [] => []
  | c :: cs =>
    if strings.Contains cs sep then afterLast sep cs
    else if sep.isPrefixOf (c :: cs) then (c :: cs).drop sep.length
    else c :: cs

/-- A line of `MaxScanTokenSize` bytes, the shortest that a `bufio.Scanner`
does not deliver. -/
def longLine : Str := List.replicate MaxScanTokenSize 'a'

/-- A line of the Makefile that contributes the entry `k ↦ v` to the comment
index: it contains `##` and has exactly one `:`, with `k` before it and `v`
after it. -/
def IsEntry (line k v : Str) : Prop :=
  "##".toList <:+: line ∧ line = k ++ ':' :: v ∧ ':' ∉ k ∧ ':' ∉ v

/-- A text lower-cased and with all space characters removed, `lower` standing
for `unicode.ToLower`. -/
def normalize (lower : Char → Char) (s : Str) : Str :=
  (s.map lower).filter (fun c => c != ' ')

/-! ## Lemmas on package `strings` -/

theorem isPrefixOf_single (c x : Char) (xs : Str) :
    List.isPrefixOf [c] (x :: xs) = (c == x) := by
  simp [List.isPrefixOf]

theorem Contains_iff (sub : Str) : ∀ s : Str, strings.Contains s sub = true ↔ sub <:+: s
  | [] => by
    simp [strings.Contains, List.isPrefixOf_iff_prefix]
  | c :: cs => by
    rw [strings.Contains, Bool.or_eq_true, Contains_iff sub cs, List.isPrefixOf_iff_prefix,
      List.infix_cons_iff]

theorem Split_go_ne_nil (sep : Str) : ∀ (s : Str) (k : Nat), strings.Split.go sep k s ≠ []
  | [], k => by simp [strings.Split.go]
  | c :: cs, k + 1 => by
    rw [strings.Split.go]
    exact Split_go_ne_nil sep cs k
  | c :: cs, 0 => by
    rw [strings.Split.go]
    split
    · simp
    · split <;> simp

theorem Split_single_head (c : Char) :
    ∀ s : Str, (strings.Split.go [c] 0 s).headD [] = s.takeWhile (fun x => x != c)
  | [] => by simp [strings.Split.go]
  | x :: xs => by
    rw [strings.Split.go, isPrefixOf_single]
    by_cases h : c = x
    · subst h
      simp
    · have ih := Split_single_head c xs
      have hx : (x != c) = true := by simpa using fun e => h e.symm
      have hc : (c == x) = false := by simpa using h
      rw [hc, List.takeWhile_cons, hx]
      simp only [Bool.false_eq_true, if_false, if_true]
      split
      · rename_i hnil
        exact absurd hnil (Split_go_ne_nil _ _ _)
      · rename_i p ps hp
        rw [hp] at ih
        simpa using ih

theorem Split_single_cons (c x : Char) (xs : Str) :
    strings.Split.go [c] 0 (x :: xs)
      = if x = c then [] :: strings.Split.go [c] 0 xs
        else (strings.Split.go [c] 0 xs).modifyHead (fun p => x :: p) := by
  rw [strings.Split.go, isPrefixOf_single]
  by_cases h : x = c
  · subst h
    simp
  · have hc : (c == x) = false := by simpa using fun e => h e.symm
    rw [hc, if_neg h]
    simp only [Bool.false_eq_true, if_false]
    split
    · rename_i hnil
      exact absurd hnil (Split_go_ne_nil _ _ _)
    · rename_i p ps hp
      rw [hp]
      rfl

theorem intercalate_cons_cons (sep p q : Str) (qs : List Str) :
    List.intercalate sep (p :: q :: qs) = p ++ sep ++ List.intercalate sep (q :: qs) := by
  simp [List.intercalate, List.intersperse]

theorem intercalate_singleton (sep p : Str) : List.intercalate sep [p] = p := by
  simp [List.intercalate, List.intersperse]

theorem intercalate_modifyHead (sep : Str) (x : Char) :
    ∀ ps : List Str, ps ≠ [] →
      List.intercalate sep (ps.modifyHead (fun p => x :: p)) = x :: List.intercalate sep ps
  | [], h => absurd rfl h
  | [p], _ => by
    simp [List.modifyHead, intercalate_singleton]
  | p :: q :: qs, _ => by
    simp [List.modifyHead, intercalate_cons_cons]

theorem Split_single_intercalate (c : Char) :
    ∀ s : Str, List.intercalate [c] (strings.Split.go [c] 0 s) = s
  | [] => by simp [strings.Split.go, intercalate_singleton]
  | x :: xs => by
    have ih := Split_single_intercalate c xs
    rw [Split_single_cons]
    by_cases h : x = c
    · rw [if_pos h]
      obtain ⟨p, ps, hp⟩ := List.exists_cons_of_ne_nil (Split_go_ne_nil [c] xs 0)
      rw [hp] at ih ⊢
      rw [intercalate_cons_cons, ih, h]
      rfl
    · rw [if_neg h, intercalate_modifyHead _ _ _ (Split_go_ne_nil _ _ _), ih]

theorem Split_single_not_mem (c : Char) :
    ∀ s : Str, ∀ p ∈ strings.Split.go [c] 0 s, c ∉ p
  | [] => by simp [strings.Split.go]
  | x :: xs => by
    have ih := Split_single_not_mem c xs
    rw [Split_single_cons]
    by_cases h : x = c
    · rw [if_pos h]
      intro p hp
      rcases List.mem_cons.mp hp with rfl | hp
      · simp
      · exact ih p hp
    · rw [if_neg h]
      obtain ⟨q, qs, hq⟩ := List.exists_cons_of_ne_nil (Split_go_ne_nil [c] xs 0)
      rw [hq] at ih ⊢
      intro p hp
      rcases List.mem_cons.mp hp with rfl | hp
      · intro hm
        rcases List.mem_cons.mp hm with e | hm
        · exact h e.symm
        · exact ih q (List.mem_cons_self _ _) hm
      · exact ih p (List.mem_cons_of_mem _ hp)

theorem Split_single_length (c : Char) :
    ∀ s : Str, (strings.Split.go [c] 0 s).length = s.count c + 1
  | [] => by simp [strings.Split.go]
  | x :: xs => by
    have ih := Split_single_length c xs
    rw [Split_single_cons]
    by_cases h : x = c
    · rw [if_pos h, List.length_cons, ih, h, List.count_cons_self]
    · rw [if_neg h, List.length_modifyHead, ih, List.count_cons_of_ne (fun e => h e.symm)]

theorem exists_last_two {α : Type} (d : α) (l : List α) (hl : 2 ≤ l.length) :
    ∃ ps a b, l = ps ++ [a, b] ∧ l.getD (l.length - 2) d = a ∧ l.getD (l.length - 1) d = b := by
  rcases List.eq_nil_or_concat l with rfl | ⟨l1, b, rfl⟩
  · simp at hl
  · rcases List.eq_nil_or_concat l1 with rfl | ⟨ps, a, rfl⟩
    · simp at hl
    · have e : (ps.concat a).concat b = ps ++ [a, b] := by simp
      have h2 : (ps ++ [a, b]).length - 2 = ps.length := by simp
      have h1 : (ps ++ [a, b]).length - 1 = ps.length + 1 := by simp
      refine ⟨ps, a, b, e, ?_, ?_⟩
      · rw [e, h2, List.getD_eq_getElem?_getD, List.getElem?_append_right (Nat.le_refl _)]
        simp
      · rw [e, h1, List.getD_eq_getElem?_getD,
          List.getElem?_append_right (Nat.le_succ _)]
        simp

theorem Split_single_append (c : Char) (rest : Str) :
    ∀ k : Str, c ∉ k →
      strings.Split.go [c] 0 (k ++ c :: rest) = k :: strings.Split.go [c] 0 rest
  | [], _ => by
    rw [List.nil_append, Split_single_cons, if_pos rfl]
  | x :: k, h => by
    have hx : x ≠ c := fun e => h (e ▸ List.mem_cons_self _ _)
    have hk : c ∉ k := fun m => h (List.mem_cons_of_mem _ m)
    rw [List.cons_append, Split_single_cons, if_neg hx, Split_single_append c rest k hk]
    rfl

theorem Split_single_of_not_mem (c : Char) :
    ∀ v : Str, c ∉ v → strings.Split.go [c] 0 v = [v]
  | [], _ => by rw [strings.Split.go]
  | x :: v, h => by
    have hx : x ≠ c := fun e => h (e ▸ List.mem_cons_self _ _)
    have hv : c ∉ v := fun m => h (List.mem_cons_of_mem _ m)
    rw [Split_single_cons, if_neg hx, Split_single_of_not_mem c v hv]
    rfl

theorem Split_colon_two_iff (x p0 p1 : Str) :
    strings.Split x ":".toList = [p0, p1] ↔ x = p0 ++ ':' :: p1 ∧ ':' ∉ p0 ∧ ':' ∉ p1 := by
  constructor
  · intro h
    have h1 := Split_single_intercalate ':' x
    have h2 := Split_single_not_mem ':' x
    have h3 : strings.Split.go [':'] 0 x = [p0, p1] := h
    rw [h3] at h1 h2
    refine ⟨?_, h2 p0 (by simp), h2 p1 (by simp)⟩
    rw [← h1, intercalate_cons_cons, intercalate_singleton]
    simp
  · rintro ⟨hx, h0, h1⟩
    show strings.Split.go [':'] 0 x = [p0, p1]
    rw [hx, Split_single_append ':' p1 p0 h0, Split_single_of_not_mem ':' p1 h1]

/-! ## Lemmas on the loops of `run` -/

theorem readLoop_map_some : ∀ toks : List Str, readLoop (toks.map some) = toks
  | [] => rfl
  | l :: toks => by
    rw [List.map_cons, readLoop, readLoop_map_some toks]

theorem readLoop_map_some_append_none (rest : List (Option Str)) :
    ∀ toks : List Str, readLoop (toks.map some ++ none :: rest) = toks
  | [] => rfl
  | l :: toks => by
    rw [List.map_cons, List.cons_append, readLoop, readLoop_map_some_append_none rest toks]

theorem readLoop_cons_inv (calls : List (Option Str)) (a : Str) (r : List Str)
    (h : readLoop calls = a :: r) : ∃ calls2, calls = some a :: calls2 ∧ readLoop calls2 = r := by
  cases calls with
  | nil => cases h
  | cons x calls2 =>
    cases x with
    | none => cases h
    | some l =>
      rw [readLoop] at h
      simp only [List.cons.injEq] at h
      exact ⟨calls2, by rw [h.1], h.2⟩

theorem skipToFiles_of_readLoop (after : List Str) :
    ∀ (pre : List Str) (calls : List (Option Str)), filesMarker ∉ pre →
      readLoop calls = pre ++ filesMarker :: after →
      readLoop (skipToFiles calls) = after ∧ (after ≠ [] → skipToFiles calls ≠ [])
  | [], calls, _, h => by
    obtain ⟨calls2, rfl, h2⟩ := readLoop_cons_inv calls _ _ h
    have : ¬ (filesMarker ≠ "# Files".toList) := fun hn => hn rfl
    rw [skipToFiles, if_neg this]
    refine ⟨h2, ?_⟩
    intro hne hnil
    rw [hnil] at h2
    exact hne h2.symm
  | l :: pre, calls, hpre, h => by
    obtain ⟨calls2, rfl, h2⟩ := readLoop_cons_inv calls _ _ h
    have hl : l ≠ "# Files".toList := fun e => hpre (e ▸ List.mem_cons_self _ _)
    have hp : filesMarker ∉ pre := fun m => hpre (List.mem_cons_of_mem _ m)
    rw [skipToFiles, if_pos hl]
    exact skipToFiles_of_readLoop after pre calls2 hp h2

theorem skipToFiles_map_some : ∀ toks : List Str, filesMarker ∉ toks →
    skipToFiles (toks.map some) = []
  | [], _ => rfl
  | l :: toks, h => by
    have hl : l ≠ "# Files".toList := fun e => h (e ▸ List.mem_cons_self _ _)
    have ht : filesMarker ∉ toks := fun m => h (List.mem_cons_of_mem _ m)
    rw [List.map_cons, skipToFiles, if_pos hl]
    exact skipToFiles_map_some toks ht

theorem skipToFiles_map_some_append_none (rest : List (Option Str)) :
    ∀ toks : List Str, filesMarker ∉ toks →
      skipToFiles (toks.map some ++ none :: rest) = rest
  | [], _ => rfl
  | l :: toks, h => by
    have hl : l ≠ "# Files".toList := fun e => h (e ▸ List.mem_cons_self _ _)
    have ht : filesMarker ∉ toks := fun m => h (List.mem_cons_of_mem _ m)
    rw [List.map_cons, List.cons_append, skipToFiles, if_pos hl]
    exact skipToFiles_map_some_append_none rest toks ht

theorem scanCalls_go_shape : ∀ (data cur : Str),
    ∃ toks : List Str, scanCalls.go cur data = toks.map some ∨
      ∃ tok : Str, scanCalls.go cur data = toks.map some ++ [none, some tok]
  | [], cur => by
    rw [scanCalls.go]
    by_cases h1 : cur = []
    · exact ⟨[], Or.inl (by rw [if_pos h1]; rfl)⟩
    · by_cases h2 : utf8Len cur < MaxScanTokenSize
      · exact ⟨[dropCR cur], Or.inl (by rw [if_neg h1, if_pos h2]; rfl)⟩
      · exact ⟨[], Or.inr ⟨_, by rw [if_neg h1, if_neg h2]; rfl⟩⟩
  | c :: cs, cur => by
    rw [scanCalls.go]
    by_cases hc : c = '\n'
    · rw [if_pos hc]
      by_cases h2 : utf8Len cur < MaxScanTokenSize
      · rw [if_pos h2]
        obtain ⟨toks, h | ⟨tok, h⟩⟩ := scanCalls_go_shape cs []
        · exact ⟨dropCR cur :: toks, Or.inl (by rw [h]; rfl)⟩
        · exact ⟨dropCR cur :: toks, Or.inr ⟨tok, by rw [h]; rfl⟩⟩
      · exact ⟨[], Or.inr ⟨_, by rw [if_neg h2]; rfl⟩⟩
    · rw [if_neg hc]
      exact scanCalls_go_shape cs (cur ++ [c])

theorem scanCalls_cases (data : Str) :
    (none ∉ scanCalls data ∧ scanCalls data = (scanLines data).map some) ∨
    (none ∈ scanCalls data ∧
      ∃ tok, scanCalls data = (scanLines data).map some ++ [none, some tok]) := by
  obtain ⟨toks, h | ⟨tok, h⟩⟩ := scanCalls_go_shape data []
  · left
    have h2 : scanCalls data = toks.map some := h
    refine ⟨?_, ?_⟩
    · rw [h2]
      simp
    · unfold scanLines
      rw [h2, readLoop_map_some]
  · right
    have h2 : scanCalls data = toks.map some ++ [none, some tok] := h
    refine ⟨?_, tok, ?_⟩
    · rw [h2]
      simp
    · unfold scanLines
      rw [h2, readLoop_map_some_append_none]

theorem scanCalls_go_line (rest : Str) :
    ∀ (l cur : Str), '\n' ∉ l →
      scanCalls.go cur (l ++ '\n' :: rest)
        = if utf8Len (cur ++ l) < MaxScanTokenSize
          then some (dropCR (cur ++ l)) :: scanCalls.go [] rest
          else [none, some (dropCR (takeBytes MaxScanTokenSize (cur ++ l)))]
  | [], cur, _ => by
    rw [List.nil_append, List.append_nil, scanCalls.go, if_pos rfl]
  | c :: l, cur, h => by
    have hc : c ≠ '\n' := fun e => h (e ▸ List.mem_cons_self _ _)
    have hl : '\n' ∉ l := fun m => h (List.mem_cons_of_mem _ m)
    rw [List.cons_append, scanCalls.go, if_neg hc, scanCalls_go_line rest l _ hl]
    simp only [List.append_assoc, List.singleton_append]

theorem utf8Len_replicate_a (n : Nat) : utf8Len (List.replicate n 'a') = n := by
  unfold utf8Len
  induction n with
  | zero => rfl
  | succ n ih =>
    rw [List.replicate_succ, List.map_cons, List.sum_cons, ih]
    have : Char.utf8Size 'a' = 1 := by decide
    omega

theorem scanCalls_short (l rest : Str) (hl : '\n' ∉ l) (hlen : utf8Len l < MaxScanTokenSize) :
    scanCalls.go [] (l ++ '\n' :: rest) = some (dropCR l) :: scanCalls.go [] rest := by
  rw [scanCalls_go_line rest l [] hl, List.nil_append, if_pos hlen]

theorem scanCalls_long (rest : Str) :
    scanCalls.go [] (longLine ++ '\n' :: rest)
      = [none, some (dropCR (takeBytes MaxScanTokenSize longLine))] := by
  have hl : '\n' ∉ longLine := by
    intro h
    have := List.eq_of_mem_replicate h
    revert this
    decide
  have hlen : ¬ utf8Len longLine < MaxScanTokenSize := by
    unfold longLine
    rw [utf8Len_replicate_a]
    exact Nat.lt_irrefl _
  rw [scanCalls_go_line rest longLine [] hl, List.nil_append, if_neg hlen]

theorem Name_congr (lines : List Str) (h h2 : Str) :
    RawTarget.Name ⟨lines, h⟩ = RawTarget.Name ⟨lines, h2⟩ := rfl

theorem kept_congr (lines : List Str) (h h2 : Str) :
    kept ⟨lines, h⟩ = kept ⟨lines, h2⟩ := rfl

theorem readTargets_blank (ls : List Str) (target : RawTarget) (rtargets : List RawTarget) :
    readTargets ([] :: ls) target rtargets
      = readTargets ls ⟨[], []⟩ (if kept target then rtargets ++ [target] else rtargets) := by
  rw [readTargets]
  simp only [List.length_nil, if_true]
  by_cases h1 : strings.HasPrefix target.Name "#".toList = true
  · have hk : kept target = false := by
      unfold kept
      rw [h1]
      rfl
    rw [if_pos h1, hk]
    rfl
  · by_cases h2 : strings.HasPrefix target.Name ".PHONY".toList = true
    · have hk : kept target = false := by
        unfold kept
        rw [h2, Bool.not_true, Bool.and_false]
      rw [if_neg h1, if_pos h2, hk]
      rfl
    · have hk : kept target = true := by
        unfold kept
        rw [Bool.eq_false_iff.mpr h1, Bool.eq_false_iff.mpr h2]
        rfl
      rw [if_neg h1, if_neg h2, hk]
      rfl

theorem readTargets_line (l : Str) (hl : l ≠ []) (ls : List Str) (target : RawTarget)
    (rtargets : List RawTarget) :
    readTargets (l :: ls) target rtargets
      = readTargets ls ⟨target.Lines ++ [l], target.Help⟩ rtargets := by
  have : ¬ l.length = 0 := fun h => hl (List.length_eq_zero.mp h)
  rw [readTargets, if_neg this]

theorem readTargets_block (rest : List Str) (h : Str) (rtargets : List RawTarget) :
    ∀ (b acc : List Str), [] ∉ b →
      readTargets (b ++ [] :: rest) ⟨acc, h⟩ rtargets
        = readTargets rest ⟨[], []⟩
            (if kept ⟨acc ++ b, h⟩ then rtargets ++ [⟨acc ++ b, h⟩] else rtargets)
  | [], acc, _ => by
    rw [List.nil_append, readTargets_blank, List.append_nil]
  | l :: b, acc, hb => by
    have hl : l ≠ [] := fun e => hb (e ▸ List.mem_cons_self _ _)
    have hb2 : [] ∉ b := fun m => hb (List.mem_cons_of_mem _ m)
    rw [List.cons_append, readTargets_line l hl, readTargets_block rest h rtargets b _ hb2]
    simp

theorem readTargets_tail : ∀ (tail : List Str) (target : RawTarget) (rtargets : List RawTarget),
    [] ∉ tail → readTargets tail target rtargets = rtargets
  | [], _, _, _ => rfl
  | l :: tail, target, rtargets, ht => by
    have hl : l ≠ [] := fun e => ht (e ▸ List.mem_cons_self _ _)
    have ht2 : [] ∉ tail := fun m => ht (List.mem_cons_of_mem _ m)
    rw [readTargets_line l hl, readTargets_tail tail _ _ ht2]

theorem readTargets_section (tail : List Str) (htail : [] ∉ tail) :
    ∀ (bs : List (List Str)) (rtargets : List RawTarget), (∀ b ∈ bs, [] ∉ b) →
      readTargets (sectionLines bs tail) ⟨[], []⟩ rtargets
        = rtargets ++ (bs.map block).filter kept
  | [], rtargets, _ => by
    simp [sectionLines, readTargets_tail tail _ _ htail]
  | b :: bs, rtargets, hbs => by
    have hb : [] ∉ b := hbs b (List.mem_cons_self _ _)
    have hbs2 : ∀ b ∈ bs, [] ∉ b := fun x hx => hbs x (List.mem_cons_of_mem _ hx)
    have ih := readTargets_section tail htail bs
    have e : sectionLines (b :: bs) tail = b ++ [] :: sectionLines bs tail := by
      simp [sectionLines]
    rw [e, readTargets_block _ _ _ b [] hb, ih _ hbs2, List.nil_append, List.map_cons,
      List.filter_cons]
    have hk : kept ⟨b, []⟩ = kept (block b) := rfl
    rw [hk]
    cases kept (block b) <;> simp [block]

theorem readTargets_kept : ∀ (ls : List Str) (target : RawTarget) (rtargets : List RawTarget),
    (∀ r ∈ rtargets, kept r = true) → ∀ r ∈ readTargets ls target rtargets, kept r = true
  | [], _, rtargets, h => by
    rw [readTargets]
    exact h
  | l :: ls, target, rtargets, h => by
    by_cases hl : l = []
    · subst hl
      rw [readTargets_blank]
      apply readTargets_kept ls
      intro r hr
      by_cases hk : kept target = true
      · rw [if_pos hk] at hr
        rcases List.mem_append.mp hr with hr | hr
        · exact h r hr
        · rw [List.mem_singleton.mp hr]
          exact hk
      · rw [if_neg hk] at hr
        exact h r hr
    · rw [readTargets_line l hl]
      exact readTargets_kept ls _ rtargets h

theorem assemble_ok (parse : Str → Except Error Time) (comments : Comments) :
    ∀ (ts : List RawTarget) (acc : List Target),
      (∀ t ∈ ts, ∃ u, t.LastUpdate parse = Except.ok u) →
      ∃ res, assemble parse comments ts acc = Except.ok (acc ++ res) ∧
        List.Forall₂ (fun (t : RawTarget) (r : Target) =>
          r.Name = t.Name ∧ r.Help = helpOf comments t.Name ∧ r.IsPhony = t.IsPhony ∧
            t.LastUpdate parse = Except.ok r.Updated) ts res
  | [], acc, _ => ⟨[], by simp [assemble], List.Forall₂.nil⟩
  | t :: ts, acc, h => by
    obtain ⟨u, hu⟩ := h t (List.mem_cons_self _ _)
    obtain ⟨res, hres, hall⟩ := assemble_ok parse comments ts
      (acc ++ [⟨t.Name, helpOf comments t.Name, t.IsPhony, u⟩])
      (fun x hx => h x (List.mem_cons_of_mem _ hx))
    refine ⟨⟨t.Name, helpOf comments t.Name, t.IsPhony, u⟩ :: res, ?_, ?_⟩
    · rw [assemble]
      simp only [hu, hres, List.append_assoc, List.singleton_append]
    · exact List.Forall₂.cons ⟨rfl, rfl, rfl, hu⟩ hall

theorem assemble_error (parse : Str → Except Error Time) (comments : Comments)
    (t : RawTarget) (ts2 : List RawTarget) (e : Error) (ht : t.LastUpdate parse = Except.error e) :
    ∀ (ts1 : List RawTarget) (acc : List Target),
      (∀ x ∈ ts1, ∃ u, x.LastUpdate parse = Except.ok u) →
      assemble parse comments (ts1 ++ t :: ts2) acc = Except.error e
  | [], acc, _ => by
    rw [List.nil_append, assemble]
    simp only [ht]
  | x :: ts1, acc, h => by
    obtain ⟨u, hu⟩ := h x (List.mem_cons_self _ _)
    rw [List.cons_append, assemble]
    simp only [hu]
    exact assemble_error parse comments t ts2 e ht ts1 _
      (fun y hy => h y (List.mem_cons_of_mem _ hy))

theorem assemble_inv (parse : Str → Except Error Time) (comments : Comments) :
    ∀ (ts : List RawTarget) (acc res : List Target),
      assemble parse comments ts acc = Except.ok res →
      ∃ out, res = acc ++ out ∧
        List.Forall₂ (fun (t : RawTarget) (r : Target) =>
          r.Name = t.Name ∧ r.Help = helpOf comments t.Name ∧ r.IsPhony = t.IsPhony ∧
            t.LastUpdate parse = Except.ok r.Updated) ts out
  | [], acc, res, h => by
    rw [assemble] at h
    cases h
    exact ⟨[], by simp, List.Forall₂.nil⟩
  | t :: ts, acc, res, h => by
    rw [assemble] at h
    cases hu : t.LastUpdate parse with
    | error e => simp [hu] at h
    | ok u =>
      simp only [hu] at h
      obtain ⟨out, hout, hall⟩ := assemble_inv parse comments ts _ res h
      refine ⟨⟨t.Name, helpOf comments t.Name, t.IsPhony, u⟩ :: out, ?_, ?_⟩
      · rw [hout]
        simp
      · exact List.Forall₂.cons ⟨rfl, rfl, rfl, hu⟩ hall

theorem LastUpdate_go_none (parse : Str → Except Error Time) :
    ∀ ls : List Str, (∀ x ∈ ls, ¬ "Last modified".toList <:+: x) →
      RawTarget.LastUpdate.go parse ls = Except.ok Time.zero
  | [], _ => rfl
  | x :: ls, h => by
    have hx : ¬ strings.Contains x "Last modified".toList = true :=
      fun hc => h x (List.mem_cons_self _ _) ((Contains_iff _ x).mp hc)
    rw [RawTarget.LastUpdate.go, if_neg hx]
    exact LastUpdate_go_none parse ls (fun y hy => h y (List.mem_cons_of_mem _ hy))

theorem LastUpdate_go_first (parse : Str → Except Error Time) (l : Str) (ls2 : List Str)
    (hl : "Last modified".toList <:+: l) :
    ∀ ls1 : List Str, (∀ x ∈ ls1, ¬ "Last modified".toList <:+: x) →
      RawTarget.LastUpdate.go parse (ls1 ++ l :: ls2) = parse (RawTarget.LastUpdate.date l)
  | [], _ => by
    rw [List.nil_append, RawTarget.LastUpdate.go, if_pos ((Contains_iff _ l).mpr hl)]
  | x :: ls1, h => by
    have hx : ¬ strings.Contains x "Last modified".toList = true :=
      fun hc => h x (List.mem_cons_self _ _) ((Contains_iff _ x).mp hc)
    rw [List.cons_append, RawTarget.LastUpdate.go, if_neg hx]
    exact LastUpdate_go_first parse l ls2 hl ls1 (fun y hy => h y (List.mem_cons_of_mem _ hy))

theorem exists_first_error {α : Type} (f : α → Except Error Time) :
    ∀ ts : List α, (∃ t ∈ ts, ∃ e, f t = Except.error e) →
      ∃ ks1 k ks2 e, ts = ks1 ++ k :: ks2 ∧ (∀ x ∈ ks1, ∃ u, f x = Except.ok u) ∧
        f k = Except.error e
  | [], h => by
    obtain ⟨t, ht, _⟩ := h
    cases ht
  | x :: ts, h => by
    cases hx : f x with
    | error e => exact ⟨[], x, ts, e, rfl, by simp, hx⟩
    | ok u =>
      have h2 : ∃ t ∈ ts, ∃ e, f t = Except.error e := by
        obtain ⟨t, ht, e, he⟩ := h
        rcases List.mem_cons.mp ht with rfl | ht
        · rw [hx] at he
          cases he
        · exact ⟨t, ht, e, he⟩
      obtain ⟨ks1, k, ks2, e, hts, hok, hk⟩ := exists_first_error f ts h2
      refine ⟨x :: ks1, k, ks2, e, by rw [hts, List.cons_append], ?_, hk⟩
      intro y hy
      rcases List.mem_cons.mp hy with rfl | hy
      · exact ⟨u, hx⟩
      · exact hok y hy

theorem date_eq_last_two (l : Str) (hl : "Last modified".toList <:+: l) :
    ∃ ps a b, strings.Split l " ".toList = ps ++ [a, b] ∧
      RawTarget.LastUpdate.date l = a ++ " ".toList ++ b := by
  have hmem : ' ' ∈ l := by
    have : ' ' ∈ "Last modified".toList := by decide
    exact hl.subset this
  have hlen : 2 ≤ (strings.Split l " ".toList).length := by
    have h1 : (strings.Split l " ".toList).length = l.count ' ' + 1 := Split_single_length ' ' l
    have h2 : 0 < l.count ' ' := List.count_pos_iff.mpr hmem
    omega
  obtain ⟨ps, a, b, hps, ha, hb⟩ := exists_last_two [] (strings.Split l " ".toList) hlen
  refine ⟨ps, a, b, hps, ?_⟩
  unfold RawTarget.LastUpdate.date
  simp only [ha, hb]

theorem readComments_append (l2 : List Str) :
    ∀ (l1 : List Str) (m : Comments),
      readComments (l1 ++ l2) m = readComments l2 (readComments l1 m)
  | [], m => by rw [List.nil_append, readComments]
  | x :: l1, m => by
    rw [List.cons_append, readComments, readComments]
    by_cases hc : strings.Contains x "##".toList = true
    · rw [if_pos hc, if_pos hc]
      by_cases hl : (strings.Split x ":".toList).length ≠ 2
      · simp only [if_pos hl]
        exact readComments_append l2 l1 m
      · simp only [if_neg hl]
        exact readComments_append l2 l1 _
    · rw [if_neg hc, if_neg hc]
      exact readComments_append l2 l1 m

theorem readComments_single_entry (x k v : Str) (m : Comments) (h : IsEntry x k v) :
    readComments [x] m k = some v := by
  obtain ⟨hc, hx, h0, h1⟩ := h
  have hs : strings.Split x ":".toList = [k, v] := (Split_colon_two_iff x k v).mpr ⟨hx, h0, h1⟩
  rw [readComments, if_pos ((Contains_iff _ x).mpr hc)]
  simp only [hs, List.length_cons, List.length_nil, ne_eq, not_true_eq_false, if_false]
  rw [readComments]
  show (if k = k then some v else m k) = some v
  rw [if_pos rfl]

theorem readComments_single_other (x k : Str) (m : Comments) (h : ∀ w, ¬ IsEntry x k w) :
    readComments [x] m k = m k := by
  rw [readComments]
  by_cases hc : strings.Contains x "##".toList = true
  · rw [if_pos hc]
    by_cases hl : (strings.Split x ":".toList).length ≠ 2
    · simp only [if_pos hl]
      rw [readComments]
    · simp only [if_neg hl]
      rw [readComments]
      have hl2 : (strings.Split x ":".toList).length = 2 := not_not.mp hl
      obtain ⟨p0, p1, hp⟩ := List.length_eq_two.mp hl2
      have he : IsEntry x p0 p1 := by
        obtain ⟨hx, h0, h1⟩ := (Split_colon_two_iff x p0 p1).mp hp
        exact ⟨(Contains_iff _ x).mp hc, hx, h0, h1⟩
      have hk : k ≠ p0 := fun e => h p1 (e ▸ he)
      rw [hp]
      show (if k = p0 then some p1 else m k) = m k
      rw [if_neg hk]
  · rw [if_neg hc, readComments]

theorem readComments_cons (x : Str) (ls : List Str) (m : Comments) :
    readComments (x :: ls) m = readComments ls (readComments [x] m) :=
  readComments_append ls [x] m

theorem readComments_of_no_entry (k : Str) :
    ∀ (ls : List Str) (m : Comments), (∀ x ∈ ls, ∀ w, ¬ IsEntry x k w) →
      readComments ls m k = m k
  | [], m, _ => by rw [readComments]
  | x :: ls, m, h => by
    rw [readComments_cons, readComments_of_no_entry k ls _
      (fun y hy => h y (List.mem_cons_of_mem _ hy)),
      readComments_single_other x k m (h x (List.mem_cons_self _ _))]

theorem readComments_some_inv (k v : Str) :
    ∀ (ls : List Str) (m : Comments), readComments ls m k = some v →
      (∃ l1 line l2, ls = l1 ++ line :: l2 ∧ IsEntry line k v ∧ ∀ x ∈ l2, ∀ w, ¬ IsEntry x k w) ∨
      (m k = some v ∧ ∀ x ∈ ls, ∀ w, ¬ IsEntry x k w)
  | [], m, h => by
    rw [readComments] at h
    exact Or.inr ⟨h, by simp⟩
  | x :: ls, m, h => by
    rw [readComments_cons] at h
    rcases readComments_some_inv k v ls _ h with ⟨l1, line, l2, hls, he, hno⟩ | ⟨hm, hno⟩
    · exact Or.inl ⟨x :: l1, line, l2, by rw [hls, List.cons_append], he, hno⟩
    · by_cases hx : ∃ w, IsEntry x k w
      · obtain ⟨w, hw⟩ := hx
        rw [readComments_single_entry x k w m hw] at hm
        cases hm
        exact Or.inl ⟨[], x, ls, rfl, hw, hno⟩
      · have hx2 : ∀ w, ¬ IsEntry x k w := fun w hw => hx ⟨w, hw⟩
        rw [readComments_single_other x k m hx2] at hm
        refine Or.inr ⟨hm, ?_⟩
        intro y hy
        rcases List.mem_cons.mp hy with rfl | hy
        · exact hx2
        · exact hno y hy

theorem readComments_none_inv (k : Str) :
    ∀ (ls : List Str) (m : Comments), readComments ls m k = none →
      ∀ x ∈ ls, ∀ w, ¬ IsEntry x k w
  | [], _, _ => by simp
  | x :: ls, m, h => by
    rw [readComments_cons] at h
    have hno := readComments_none_inv k ls _ h
    rw [readComments_of_no_entry k ls _ hno] at h
    intro y hy
    rcases List.mem_cons.mp hy with rfl | hy
    · intro w hw
      rw [readComments_single_entry y k w m hw] at h
      cases h
    · exact hno y hy

theorem scan_eq (out : Str) :
    scan out = match skipToFiles (scanCalls out).tail with
      | some _ :: rest => Except.ok (version out, readTargets (readLoop rest) ⟨[], []⟩ [])
      | _ => Except.error Error.unexpectedEOF := by
  unfold scan version scanLines
  cases scanCalls out with
  | nil => rfl
  | cons y ys => cases y <;> rfl

theorem skipToFiles_single (tok : Str) : skipToFiles [some tok] = [] := by
  rw [skipToFiles]
  split <;> rfl

theorem scan_found (out v : Str) (pre : List Str) (sep : Str) (rest : List Str)
    (hscan : scanLines out = v :: (pre ++ filesMarker :: sep :: rest))
    (hpre : filesMarker ∉ pre) :
    scan out = Except.ok (strings.Replace1 "# ".toList [] v, readTargets rest ⟨[], []⟩ []) := by
  have hv : version out = strings.Replace1 "# ".toList [] v := by
    unfold version
    rw [hscan]
  obtain ⟨calls2, hc, h2⟩ := readLoop_cons_inv (scanCalls out) _ _ hscan
  obtain ⟨h3, _⟩ := skipToFiles_of_readLoop (sep :: rest) pre calls2 hpre h2
  obtain ⟨calls3, hc3, h4⟩ := readLoop_cons_inv _ _ _ h3
  rw [scan_eq, hc, List.tail_cons, hc3, hv]
  simp only [h4]

theorem scan_marker_last (out v : Str) (pre : List Str)
    (hscan : scanLines out = v :: (pre ++ [filesMarker])) (hpre : filesMarker ∉ pre) :
    scan out = Except.error Error.unexpectedEOF := by
  obtain ⟨calls2, hc, h2⟩ := readLoop_cons_inv (scanCalls out) _ _ hscan
  obtain ⟨h3, _⟩ := skipToFiles_of_readLoop [] pre calls2 hpre h2
  rw [scan_eq, hc, List.tail_cons]
  cases hk : skipToFiles calls2 with
  | nil => rfl
  | cons x xs =>
    cases x with
    | none => rfl
    | some l =>
      rw [hk, readLoop] at h3
      cases h3

theorem scan_eof (out : Str) (h : filesMarker ∉ (scanLines out).tail)
    (hno : none ∉ scanCalls out ∨ scanLines out = []) :
    scan out = Except.error Error.unexpectedEOF := by
  rw [scan_eq]
  rcases scanCalls_cases out with ⟨_, hc⟩ | ⟨hmem, tok, hc⟩
  · cases hs : scanLines out with
    | nil =>
      rw [hs] at hc
      rw [hc]
      rfl
    | cons l ls =>
      rw [hs] at hc h
      simp only [List.tail_cons] at h
      rw [hc, List.map_cons, List.tail_cons, skipToFiles_map_some ls h]
  · rcases hno with hno | hno
    · exact absurd hmem hno
    · rw [hno] at hc
      rw [hc, List.map_nil, List.nil_append, List.tail_cons, skipToFiles_single]

theorem scan_overflow (out : Str) (h : filesMarker ∉ (scanLines out).tail)
    (hlong : none ∈ scanCalls out) (hne : scanLines out ≠ []) :
    scan out = Except.ok (version out, []) := by
  rw [scan_eq]
  rcases scanCalls_cases out with ⟨hno, _⟩ | ⟨_, tok, hc⟩
  · exact absurd hlong hno
  · cases hs : scanLines out with
    | nil => exact absurd hs hne
    | cons l ls =>
      rw [hs] at hc h
      simp only [List.tail_cons] at h
      rw [hc, List.map_cons, List.cons_append, List.tail_cons,
        skipToFiles_map_some_append_none [some tok] ls h]
      rfl

theorem forall2_map_eq {α β γ : Type} {R : α → β → Prop} (f : β → γ) (g : α → γ)
    (hR : ∀ a b, R a b → f b = g a) :
    ∀ {l1 : List α} {l2 : List β}, List.Forall₂ R l1 l2 → l2.map f = l1.map g
  | _, _, List.Forall₂.nil => rfl
  | _, _, List.Forall₂.cons h hs => by
    rw [List.map_cons, List.map_cons, hR _ _ h, forall2_map_eq f g hR hs]

theorem forall2_transfer {α β : Type} {R : α → β → Prop} {P : α → Prop} {Q : β → Prop}
    (hR : ∀ a b, R a b → P a → Q b) :
    ∀ {l1 : List α} {l2 : List β}, List.Forall₂ R l1 l2 → (∀ a ∈ l1, P a) → ∀ b ∈ l2, Q b
  | _, _, List.Forall₂.nil, _ => by simp
  | _, _, List.Forall₂.cons h hs, hP => by
    intro b hb
    rcases List.mem_cons.mp hb with rfl | hb
    · exact hR _ _ h (hP _ (List.mem_cons_self _ _))
    · exact forall2_transfer hR hs (fun a ha => hP a (List.mem_cons_of_mem _ ha)) b hb

theorem scan_inv (out ver : Str) (rtargets : List RawTarget)
    (h : scan out = Except.ok (ver, rtargets)) :
    ver = version out ∧ ∃ ls, rtargets = readTargets ls ⟨[], []⟩ [] := by
  rw [scan_eq] at h
  cases hk : skipToFiles (scanCalls out).tail with
  | nil =>
    rw [hk] at h
    cases h
  | cons x xs =>
    rw [hk] at h
    cases x with
    | none => cases h
    | some l =>
      simp only [Except.ok.injEq, Prod.mk.injEq] at h
      exact ⟨h.1.symm, readLoop xs, h.2.symm⟩

theorem scan_kept (out ver : Str) (rtargets : List RawTarget)
    (h : scan out = Except.ok (ver, rtargets)) : ∀ r ∈ rtargets, kept r = true := by
  obtain ⟨_, ls, hls⟩ := scan_inv out ver rtargets h
  rw [hls]
  exact readTargets_kept _ _ _ (by simp)

theorem run_of_section (parse : Str → Except Error Time) (out mk v : Str) (pre : List Str)
    (sep : Str) (bs : List (List Str)) (tail : List Str)
    (hscan : scanLines out = v :: (pre ++ filesMarker :: sep :: sectionLines bs tail))
    (hpre : filesMarker ∉ pre) (hbs : ∀ b ∈ bs, [] ∉ b) (htail : [] ∉ tail) :
    run parse out (Except.ok mk)
      = match assemble parse (readComments (scanLines mk) (fun _ => none))
            ((bs.map block).filter kept) [] with
        | Except.error err => Except.error err
        | Except.ok targets => Except.ok (strings.Replace1 "# ".toList [] v, targets) := by
  unfold run
  simp only [scan_found out v pre sep _ hscan hpre, readTargets_section tail htail bs [] hbs,
    List.nil_append]

theorem Split_hh_match (r : Str) :
    strings.Split.go "##".toList 0 ('#' :: '#' :: r) = [] :: strings.Split.go "##".toList 0 r := by
  have h : List.isPrefixOf "##".toList ('#' :: '#' :: r) = true := by
    simp [List.isPrefixOf]
  rw [strings.Split.go, if_pos h]
  show [] :: strings.Split.go "##".toList 1 ('#' :: r) = _
  rw [strings.Split.go]

theorem Split_hh_other (x : Char) (xs : Str)
    (h : List.isPrefixOf "##".toList (x :: xs) = false) :
    strings.Split.go "##".toList 0 (x :: xs)
      = (strings.Split.go "##".toList 0 xs).modifyHead (fun p => x :: p) := by
  rw [strings.Split.go, h]
  simp only [Bool.false_eq_true, if_false]
  split
  · rename_i hnil
    exact absurd hnil (Split_go_ne_nil _ _ _)
  · rename_i p ps hp
    rw [hp]
    rfl

theorem hh_isPrefixOf_eq_true (x : Char) (xs : Str)
    (h : List.isPrefixOf "##".toList (x :: xs) = true) : ∃ r, x = '#' ∧ xs = '#' :: r := by
  cases xs with
  | nil => simp [List.isPrefixOf] at h
  | cons y r =>
    simp [List.isPrefixOf] at h
    exact ⟨r, h.1.symm, by rw [h.2]⟩

theorem Split_hh_of_not_contains :
    ∀ s : Str, strings.Contains s "##".toList = false → strings.Split.go "##".toList 0 s = [s]
  | [], _ => by rw [strings.Split.go]
  | x :: xs, h => by
    rw [strings.Contains, Bool.or_eq_false_iff] at h
    rw [Split_hh_other x xs h.1, Split_hh_of_not_contains xs h.2]
    rfl

theorem Split_hh_length_of_contains :
    ∀ s : Str, strings.Contains s "##".toList = true →
      2 ≤ (strings.Split.go "##".toList 0 s).length
  | [], h => by simp [strings.Contains, List.isPrefixOf] at h
  | x :: xs, h => by
    cases hp : List.isPrefixOf "##".toList (x :: xs) with
    | true =>
      obtain ⟨r, rfl, rfl⟩ := hh_isPrefixOf_eq_true x xs hp
      rw [Split_hh_match, List.length_cons]
      have := List.length_pos.mpr (Split_go_ne_nil "##".toList r 0)
      omega
    | false =>
      rw [strings.Contains, hp, Bool.false_or] at h
      rw [Split_hh_other x xs hp, List.length_modifyHead]
      exact Split_hh_length_of_contains xs h

theorem getD_last_cons {α : Type} (d a : α) (l : List α) (hl : l ≠ []) :
    (a :: l).getD ((a :: l).length - 1) d = l.getD (l.length - 1) d := by
  obtain ⟨b, t, rfl⟩ := List.exists_cons_of_ne_nil hl
  simp [List.getD_cons_succ]

theorem getD_last_modifyHead {α : Type} (d : α) (f : α → α) (l : List α) (hl : 2 ≤ l.length) :
    (l.modifyHead f).getD ((l.modifyHead f).length - 1) d = l.getD (l.length - 1) d := by
  match l, hl with
  | a :: b :: t, _ => simp [List.modifyHead, List.getD_cons_succ]

theorem Split_hh_last_eq_afterLast :
    ∀ (n : Nat) (s : Str), s.length ≤ n → ¬ "###".toList <:+: s →
      (strings.Split.go "##".toList 0 s).getD ((strings.Split.go "##".toList 0 s).length - 1) []
        = afterLast "##".toList s := by
  intro n
  induction n with
  | zero =>
    intro s hs _
    have : s = [] := List.length_eq_zero.mp (Nat.le_zero.mp hs)
    subst this
    rfl
  | succ n ih =>
    intro s hs hno
    cases s with
    | nil => rfl
    | cons x xs =>
      have hxs : xs.length ≤ n := by
        simp only [List.length_cons] at hs
        omega
      have hno_xs : ¬ "###".toList <:+: xs := fun h => hno (List.infix_cons h)
      cases hp : List.isPrefixOf "##".toList (x :: xs) with
      | true =>
        obtain ⟨r, rfl, rfl⟩ := hh_isPrefixOf_eq_true x xs hp
        have hr : r.length ≤ n := by
          simp only [List.length_cons] at hxs
          omega
        have hno_r : ¬ "###".toList <:+: r := fun h => hno_xs (List.infix_cons h)
        have hnp : List.isPrefixOf "##".toList ('#' :: r) = false := by
          cases hq : List.isPrefixOf "##".toList ('#' :: r) with
          | false => rfl
          | true =>
            obtain ⟨r2, _, rfl⟩ := hh_isPrefixOf_eq_true '#' r hq
            exact absurd (List.prefix_append "###".toList r2).isInfix hno
        rw [Split_hh_match, getD_last_cons _ _ _ (Split_go_ne_nil _ _ _), afterLast]
        have hc : strings.Contains ('#' :: r) "##".toList = strings.Contains r "##".toList := by
          rw [strings.Contains, hnp, Bool.false_or]
        rw [hc]
        cases hcr : strings.Contains r "##".toList with
        | true =>
          rw [if_pos rfl, afterLast, hcr, if_pos rfl]
          exact ih r hr hno_r
        | false =>
          rw [Split_hh_of_not_contains r hcr, if_neg (by simp), if_pos hp]
          rfl
      | false =>
        rw [Split_hh_other x xs hp, afterLast]
        cases hcx : strings.Contains xs "##".toList with
        | true =>
          rw [if_pos rfl, getD_last_modifyHead _ _ _ (Split_hh_length_of_contains xs hcx)]
          exact ih xs hxs hno_xs
        | false =>
          rw [Split_hh_of_not_contains xs hcx, if_neg (by simp), hp, if_neg (by simp)]
          rfl

theorem run_help (parse : Str → Except Error Time) (out mk ver : Str) (targets : List Target)
    (h : run parse out (Except.ok mk) = Except.ok (ver, targets)) :
    ∀ t ∈ targets, t.Help = helpOf (readComments (scanLines mk) (fun _ => none)) t.Name := by
  unfold run at h
  cases hs : scan out with
  | error e => simp [hs] at h
  | ok vr =>
    obtain ⟨version, rtargets⟩ := vr
    simp only [hs] at h
    cases ha : assemble parse (readComments (scanLines mk) (fun _ => none)) rtargets [] with
    | error e => simp [ha] at h
    | ok res =>
      simp only [ha, Except.ok.injEq, Prod.mk.injEq] at h
      obtain ⟨out2, hout, hf⟩ := assemble_inv parse _ rtargets [] res ha
      rw [List.nil_append] at hout
      subst hout
      rw [← h.2]
      refine forall2_transfer (P := fun _ => True) ?_ hf (fun _ _ => trivial)
      intro a b hab _
      rw [hab.2.1, hab.1]

theorem scan_of_section (out v : Str) (pre : List Str) (sep : Str) (bs : List (List Str))
    (tail : List Str)
    (hscan : scanLines out = v :: (pre ++ filesMarker :: sep :: sectionLines bs tail))
    (hpre : filesMarker ∉ pre) (hbs : ∀ b ∈ bs, [] ∉ b) (htail : [] ∉ tail) :
    scan out = Except.ok (strings.Replace1 "# ".toList [] v, (bs.map block).filter kept) := by
  rw [scan_found out v pre sep _ hscan hpre, readTargets_section tail htail bs [] hbs,
    List.nil_append]

theorem readTargets_lines_ne_nil :
    ∀ (ls : List Str) (target : RawTarget) (rtargets : List RawTarget),
      (∀ l ∈ target.Lines, l ≠ []) → (∀ r ∈ rtargets, ∀ l ∈ r.Lines, l ≠ []) →
      ∀ r ∈ readTargets ls target rtargets, ∀ l ∈ r.Lines, l ≠ []
  | [], _, rtargets, _, h => by
    rw [readTargets]
    exact h
  | x :: ls, target, rtargets, ht, h => by
    by_cases hx : x = []
    · subst hx
      rw [readTargets_blank]
      apply readTargets_lines_ne_nil ls
      · simp
      · intro r hr
        by_cases hk : kept target = true
        · rw [if_pos hk] at hr
          rcases List.mem_append.mp hr with hr | hr
          · exact h r hr
          · rw [List.mem_singleton.mp hr]
            exact ht
        · rw [if_neg hk] at hr
          exact h r hr
    · rw [readTargets_line x hx]
      apply readTargets_lines_ne_nil ls _ rtargets _ h
      intro l hl
      rcases List.mem_append.mp hl with hl | hl
      · exact ht l hl
      · rw [List.mem_singleton.mp hl]
        exact hx

theorem forall2_exists_left {α β : Type} {R : α → β → Prop} :
    ∀ {l1 : List α} {l2 : List β}, List.Forall₂ R l1 l2 → ∀ b ∈ l2, ∃ a ∈ l1, R a b
  | _, _, List.Forall₂.nil => by simp
  | _, _, List.Forall₂.cons h hs => by
    intro b hb
    rcases List.mem_cons.mp hb with rfl | hb
    · exact ⟨_, List.mem_cons_self _ _, h⟩
    · obtain ⟨a, ha, hr⟩ := forall2_exists_left hs b hb
      exact ⟨a, List.mem_cons_of_mem _ ha, hr⟩

theorem run_inv (parse : Str → Except Error Time) (out : Str) (file : Except Error Str)
    (ver : Str) (targets : List Target) (h : run parse out file = Except.ok (ver, targets)) :
    ∃ rtargets mk, scan out = Except.ok (ver, rtargets) ∧ file = Except.ok mk ∧
      List.Forall₂ (fun (t : RawTarget) (r : Target) =>
          r.Name = t.Name ∧
          r.Help = helpOf (readComments (scanLines mk) (fun _ => none)) t.Name ∧
          r.IsPhony = t.IsPhony ∧ t.LastUpdate parse = Except.ok r.Updated) rtargets targets := by
  unfold run at h
  cases hs : scan out with
  | error e => simp [hs] at h
  | ok vr =>
    obtain ⟨version, rtargets⟩ := vr
    cases file with
    | error e => simp [hs] at h
    | ok content =>
      simp only [hs] at h
      cases ha : assemble parse (readComments (scanLines content) (fun _ => none)) rtargets [] with
      | error e => simp [ha] at h
      | ok res =>
        simp only [ha, Except.ok.injEq, Prod.mk.injEq] at h
        obtain ⟨out2, hout, hf⟩ := assemble_inv parse _ rtargets [] res ha
        rw [List.nil_append] at hout
        subst hout
        refine ⟨rtargets, content, ?_, rfl, ?_⟩
        · rw [h.1]
        · rw [← h.2]
          exact hf

theorem Replace1_of_not_infix (old new : Str) :
    ∀ l : Str, ¬ old <:+: l → strings.Replace1 old new l = l
  | [], _ => by rw [strings.Replace1]
  | c :: cs, h => by
    have hp : ¬ List.isPrefixOf old (c :: cs) = true :=
      fun hp => h (List.isPrefixOf_iff_prefix.mp hp).isInfix
    rw [strings.Replace1, if_neg hp,
      Replace1_of_not_infix old new cs (fun hi => h (List.infix_cons hi))]

theorem Replace1_hash_first (b : Str) :
    ∀ a : Str, ¬ "# ".toList <:+: a ++ ['#'] →
      strings.Replace1 "# ".toList [] (a ++ "# ".toList ++ b) = a ++ b
  | [], _ => by
    show strings.Replace1 "# ".toList [] ('#' :: ' ' :: b) = b
    rw [strings.Replace1]
    simp [List.isPrefixOf]
  | x :: a, h => by
    have ha : ¬ "# ".toList <:+: a ++ ['#'] := fun hi => h (List.infix_cons hi)
    have hp : ¬ List.isPrefixOf "# ".toList (x :: (a ++ "# ".toList ++ b)) = true := by
      intro hp
      cases a with
      | nil => simp [List.isPrefixOf] at hp
      | cons y a2 =>
        simp [List.isPrefixOf] at hp
        apply h
        rw [← hp.1, ← hp.2]
        exact (List.prefix_append "# ".toList (a2 ++ ['#'])).isInfix
    show strings.Replace1 "# ".toList [] (x :: (a ++ "# ".toList ++ b)) = x :: (a ++ b)
    rw [strings.Replace1, if_neg hp, Replace1_hash_first b a ha]

theorem ReplaceAll_space :
    ∀ s : Str, strings.ReplaceAll.go " ".toList [] 0 s = s.filter (fun c => c != ' ')
  | [] => by simp [strings.ReplaceAll.go]
  | c :: cs => by
    have ih := ReplaceAll_space cs
    rw [strings.ReplaceAll.go]
    have hp : List.isPrefixOf " ".toList (c :: cs) = (' ' == c) := isPrefixOf_single ' ' c cs
    rw [hp]
    by_cases h : c = ' '
    · subst h
      have h0 : " ".toList.length - 1 = 0 := rfl
      rw [if_pos (by decide), h0, ih]
      simp
    · have hc : (' ' == c) = false := by simpa using fun e => h e.symm
      have hb : (c != ' ') = true := by simpa using h
      rw [hc, List.filter_cons, hb, ih]
      simp

theorem readTargets_append_state :
    ∀ (xs : List Str) (t : RawTarget) (rt : List RawTarget),
      ∃ t2 rt2, ∀ rest, readTargets (xs ++ rest) t rt = readTargets rest t2 rt2
  | [], t, rt => ⟨t, rt, fun _ => rfl⟩
  | x :: xs, t, rt => by
    by_cases hx : x = []
    · subst hx
      obtain ⟨t2, rt2, h⟩ := readTargets_append_state xs ⟨[], []⟩
        (if kept t then rt ++ [t] else rt)
      exact ⟨t2, rt2, fun rest => by rw [List.cons_append, readTargets_blank, h]⟩
    · obtain ⟨t2, rt2, h⟩ := readTargets_append_state xs ⟨t.Lines ++ [x], t.Help⟩ rt
      exact ⟨t2, rt2, fun rest => by rw [List.cons_append, readTargets_line x hx, h]⟩

theorem readTargets_extra_blank (xs ys : List Str) (hx : xs = [] ∨ ∃ xs0, xs = xs0 ++ [[]]) :
    readTargets (xs ++ [] :: ys) ⟨[], []⟩ [] = readTargets (xs ++ ys) ⟨[], []⟩ [] := by
  have hempty : ∀ rt : List RawTarget,
      readTargets ([] :: ys) ⟨[], []⟩ rt = readTargets ys ⟨[], []⟩ rt := by
    intro rt
    rw [readTargets_blank]
    rfl
  rcases hx with rfl | ⟨xs0, rfl⟩
  · rw [List.nil_append, List.nil_append, hempty]
  · obtain ⟨t2, rt2, h⟩ := readTargets_append_state xs0 ⟨[], []⟩ []
    have e1 : readTargets ([] :: [] :: ys) t2 rt2
        = readTargets ys ⟨[], []⟩ (if kept t2 then rt2 ++ [t2] else rt2) := by
      rw [readTargets_blank, hempty]
    have e2 : readTargets ([] :: ys) t2 rt2
        = readTargets ys ⟨[], []⟩ (if kept t2 then rt2 ++ [t2] else rt2) :=
      readTargets_blank _ _ _
    rw [List.append_assoc, List.append_assoc, h, h, List.singleton_append,
      List.singleton_append, e1, e2]

theorem TrimSpace_within (s : Str) : strings.TrimSpace s <:+: s := by
  unfold strings.TrimSpace
  have h1 : List.dropWhile unicode.IsSpace s <:+ s := List.dropWhile_suffix _
  have h2 : ((List.dropWhile unicode.IsSpace s).reverse.dropWhile unicode.IsSpace).reverse
      <+: List.dropWhile unicode.IsSpace s := by
    have h3 : (List.dropWhile unicode.IsSpace s).reverse.dropWhile unicode.IsSpace
        <:+ (List.dropWhile unicode.IsSpace s).reverse := List.dropWhile_suffix _
    have h4 := List.reverse_prefix.mpr h3
    rwa [List.reverse_reverse] at h4
  exact h2.isInfix.trans h1.isInfix

theorem Split_hh_last_not_contains :
    ∀ (n : Nat) (s : Str), s.length ≤ n →
      strings.Contains
        ((strings.Split.go "##".toList 0 s).getD ((strings.Split.go "##".toList 0 s).length - 1) [])
        "##".toList = false := by
  intro n
  induction n with
  | zero =>
    intro s hs
    have : s = [] := List.length_eq_zero.mp (Nat.le_zero.mp hs)
    subst this
    rfl
  | succ n ih =>
    intro s hs
    cases s with
    | nil => rfl
    | cons x xs =>
      have hxs : xs.length ≤ n := by
        simp only [List.length_cons] at hs
        omega
      cases hp : List.isPrefixOf "##".toList (x :: xs) with
      | true =>
        obtain ⟨r, rfl, rfl⟩ := hh_isPrefixOf_eq_true x xs hp
        have hr : r.length ≤ n := by
          simp only [List.length_cons] at hxs
          omega
        rw [Split_hh_match, getD_last_cons _ _ _ (Split_go_ne_nil _ _ _)]
        exact ih r hr
      | false =>
        rw [Split_hh_other x xs hp]
        cases hcx : strings.Contains xs "##".toList with
        | true =>
          rw [getD_last_modifyHead _ _ _ (Split_hh_length_of_contains xs hcx)]
          exact ih xs hxs
        | false =>
          rw [Split_hh_of_not_contains xs hcx]
          show strings.Contains (x :: xs) "##".toList = false
          rw [strings.Contains, hp, hcx]
          rfl

theorem helpOf_no_marker (comments : Comments) (name : Str) :
    ¬ "##".toList <:+: helpOf comments name := by
  unfold helpOf
  cases comments name with
  | none =>
    show ¬ "##".toList <:+: []
    decide
  | some c =>
    intro h
    have h2 := h.trans (TrimSpace_within _)
    have h3 := Split_hh_last_not_contains c.length c (Nat.le_refl _)
    have h4 := (Contains_iff "##".toList _).mpr h2
    unfold strings.Split at h4
    rw [h3] at h4
    cases h4

theorem run_of_scan_error (parse : Str → Except Error Time) (out : Str)
    (file : Except Error Str) (e : Error) (hs : scan out = Except.error e) :
    run parse out file = Except.error e := by
  unfold run
  rw [hs]

theorem run_of_scan_nil (parse : Str → Except Error Time) (out mk ver : Str)
    (hs : scan out = Except.ok (ver, [])) :
    run parse out (Except.ok mk) = Except.ok (ver, []) := by
  unfold run
  rw [hs]
  rfl

theorem scan_stop_after_first (out v tok : Str)
    (hc : scanCalls out = [some v, none, some tok]) :
    scan out = Except.ok (strings.Replace1 "# ".toList [] v, []) := by
  rw [scan_eq]
  unfold version scanLines
  rw [hc]
  rfl

theorem scan_stop_after_marker (out v tok : Str)
    (hc : scanCalls out = [some v, some filesMarker, none, some tok]) :
    scan out = Except.error Error.unexpectedEOF := by
  rw [scan_eq, hc]
  rfl

/-! ## The claims -/

/-- C1, as stated, fails in two ways.  The dump `# Files`, `#`, `build: foo.o`,
blank line contains the marker followed by a separator line and one kept block
whose timestamp does not fail to parse, yet `run` builds no Target list: it
returns the error "unexpected EOF", the first line being read as the version
line.  And in the dump `# GNU Make 4.3`, a line of 65536 bytes, `# Files`, a
separator line, `build: foo.o`, blank line, the scanner stops on the long
line: `run` succeeds with an empty Target list. -/
theorem run_marker_on_first_line_fails :
    (scanLines "# Files\n#\nbuild: foo.o\n\n".toList
        = filesMarker :: "#".toList :: sectionLines [["build: foo.o".toList]] [] ∧
      kept (block ["build: foo.o".toList]) = true ∧
      RawTarget.LastUpdate parseInLocation (block ["build: foo.o".toList]) = Except.ok Time.zero ∧
      run parseInLocation "# Files\n#\nbuild: foo.o\n\n".toList (Except.ok [])
        = Except.error Error.unexpectedEOF) ∧
    run parseInLocation
        ("# GNU Make 4.3".toList ++ '\n' :: (longLine ++ '\n' ::
          "# Files\n\nbuild: foo.o\n\n".toList)) (Except.ok [])
      = Except.ok ("GNU Make 4.3".toList, []) := by
  refine ⟨by decide, ?_⟩
  have hc : scanCalls ("# GNU Make 4.3".toList ++ '\n' :: (longLine ++ '\n' ::
      "# Files\n\nbuild: foo.o\n\n".toList))
      = [some "# GNU Make 4.3".toList, none,
          some (dropCR (takeBytes MaxScanTokenSize longLine))] := by
    unfold scanCalls
    rw [scanCalls_short _ _ (by decide) (by decide), scanCalls_long]
    rfl
  have hs := scan_stop_after_first _ _ _ hc
  have hv : strings.Replace1 "# ".toList [] "# GNU Make 4.3".toList = "GNU Make 4.3".toList := by
    decide
  rw [hv] at hs
  exact run_of_scan_nil parseInLocation _ [] _ hs

/-- C1, amended: for every dump of which the scanner delivers a first line,
then lines other than the marker, the marker `# Files`, a separator line, the
blocks `bs` each closed by a blank line and an unterminated rest `tail` (up to
the end of the dump or to its first line of 65536 bytes or more), and for
every Makefile text, when `LastUpdate` fails on no kept block `run` succeeds
and its Target list has one entry per block of `bs` whose name starts with
neither `#` nor `.PHONY`, in the order of the dump and without deduplication,
the i-th entry having the `Name()` and `IsPhony()` of the i-th kept block. -/
theorem run_targets_of_blocks (parse : Str → Except Error Time) (out mk v : Str)
    (pre : List Str) (sep : Str) (bs : List (List Str)) (tail : List Str)
    (hscan : scanLines out = v :: (pre ++ filesMarker :: sep :: sectionLines bs tail))
    (hpre : filesMarker ∉ pre) (hbs : ∀ b ∈ bs, [] ∉ b) (htail : [] ∉ tail)
    (hparse : ∀ b ∈ bs, kept (block b) = true →
      ∃ u, RawTarget.LastUpdate parse (block b) = Except.ok u) :
    ∃ ver targets, run parse out (Except.ok mk) = Except.ok (ver, targets) ∧
      targets.length = ((bs.map block).filter kept).length ∧
      targets.map (fun t => (t.Name, t.IsPhony))
        = ((bs.map block).filter kept).map (fun b => (b.Name, b.IsPhony)) := by
  have hall : ∀ t ∈ (bs.map block).filter kept, ∃ u, t.LastUpdate parse = Except.ok u := by
    intro t ht
    obtain ⟨htm, hk⟩ := List.mem_filter.mp ht
    obtain ⟨b, hb, rfl⟩ := List.mem_map.mp htm
    exact hparse b hb hk
  obtain ⟨res, hres, hf⟩ := assemble_ok parse (readComments (scanLines mk) (fun _ => none))
    ((bs.map block).filter kept) [] hall
  refine ⟨strings.Replace1 "# ".toList [] v, res, ?_, hf.length_eq.symm, ?_⟩
  · rw [run_of_section parse out mk v pre sep bs tail hscan hpre hbs htail, hres]
    rfl
  · exact forall2_map_eq (fun t => (t.Name, t.IsPhony)) (fun b => (b.Name, b.IsPhony))
      (fun a b h => by
        show (b.Name, b.IsPhony) = (a.Name, a.IsPhony)
        rw [h.1, h.2.2.1]) hf

/-- Witness of C1 (amended): a dump with a repeated block and three excluded
blocks. -/
theorem run_targets_of_blocks_witness :
    ∃ ver targets,
      run parseInLocation
        "# GNU Make 4.3\n# Make data base\n# Files\n\nall: a\n\n# Not a target:\n.c.o:\n\nall: a\n\n\n.PHONY: all\n\nclean:\n#  Phony target (prerequisite of .PHONY).\n\nrest:".toList
        (Except.ok "all: ## everything".toList) = Except.ok (ver, targets) ∧
      targets.length = 3 ∧
      targets.map (fun t => (t.Name, t.IsPhony))
        = [("all".toList, false), ("all".toList, false), ("clean".toList, true)] :=
  run_targets_of_blocks parseInLocation
    "# GNU Make 4.3\n# Make data base\n# Files\n\nall: a\n\n# Not a target:\n.c.o:\n\nall: a\n\n\n.PHONY: all\n\nclean:\n#  Phony target (prerequisite of .PHONY).\n\nrest:".toList
    "all: ## everything".toList "# GNU Make 4.3".toList ["# Make data base".toList] []
    [["all: a".toList], ["# Not a target:".toList, ".c.o:".toList], ["all: a".toList], [],
      [".PHONY: all".toList],
      ["clean:".toList, "#  Phony target (prerequisite of .PHONY).".toList]]
    ["rest:".toList]
    (by decide) (by decide) (by decide) (by decide)
    (by
      intro b hb _
      simp only [List.mem_cons, List.mem_singleton, List.not_mem_nil, or_false] at hb
      rcases hb with rfl | rfl | rfl | rfl | rfl | rfl <;> exact ⟨_, rfl⟩)

/-- C2: whenever `run` delivers a Target list, no Target in it has a `Name`
that starts with `#` or with `.PHONY`. -/
theorem run_names_not_excluded (parse : Str → Except Error Time) (out : Str)
    (file : Except Error Str) (ver : Str) (targets : List Target)
    (h : run parse out file = Except.ok (ver, targets)) :
    ∀ t ∈ targets, strings.HasPrefix t.Name "#".toList = false ∧
      strings.HasPrefix t.Name ".PHONY".toList = false := by
  unfold run at h
  cases hs : scan out with
  | error e => simp [hs] at h
  | ok vr =>
    obtain ⟨version, rtargets⟩ := vr
    cases file with
    | error e => simp [hs] at h
    | ok content =>
      simp only [hs] at h
      cases ha : assemble parse (readComments (scanLines content) (fun _ => none)) rtargets [] with
      | error e => simp [ha] at h
      | ok res =>
        simp only [ha, Except.ok.injEq, Prod.mk.injEq] at h
        obtain ⟨out2, hout, hf⟩ := assemble_inv parse _ rtargets [] res ha
        have hk : ∀ r ∈ rtargets, kept r = true := scan_kept out version rtargets hs
        rw [List.nil_append] at hout
        subst hout
        rw [← h.2]
        refine forall2_transfer ?_ hf hk
        intro a b hab hka
        unfold kept at hka
        rw [hab.1]
        simpa using hka

/-- Witness of C2: a dump with a comment block, a `.PHONY` block and two
targets. -/
theorem run_names_not_excluded_witness :
    run parseInLocation
        "# GNU Make 4.3\n# Files\n\n# Not a target:\n.c.o:\n\nall: a\n\n.PHONY: all\n\nclean:\n\n".toList
        (Except.ok []) =
      Except.ok ("GNU Make 4.3".toList,
        [⟨"all".toList, [], false, Time.zero⟩, ⟨"clean".toList, [], false, Time.zero⟩]) ∧
    ∀ t ∈ [(⟨"all".toList, [], false, Time.zero⟩ : Target), ⟨"clean".toList, [], false, Time.zero⟩],
      strings.HasPrefix t.Name "#".toList = false ∧
        strings.HasPrefix t.Name ".PHONY".toList = false :=
  ⟨by decide, run_names_not_excluded parseInLocation
    "# GNU Make 4.3\n# Files\n\n# Not a target:\n.c.o:\n\nall: a\n\n.PHONY: all\n\nclean:\n\n".toList
    (Except.ok []) "GNU Make 4.3".toList _ (by decide)⟩

/-- C3, as stated, fails: on a dump of two lines, none of them `# Files`, `run`
does not yield zero targets without error: it returns the error
"unexpected EOF". -/
theorem run_without_marker_is_error :
    filesMarker ∉ scanLines "# GNU Make 4.3\n# Make data base\n".toList ∧
      run parseInLocation "# GNU Make 4.3\n# Make data base\n".toList (Except.ok [])
        = Except.error Error.unexpectedEOF ∧
      ¬ ∃ ver, run parseInLocation "# GNU Make 4.3\n# Make data base\n".toList (Except.ok [])
        = Except.ok (ver, []) := by
  refine ⟨by decide, by decide, ?_⟩
  rintro ⟨ver, h⟩
  have e : run parseInLocation "# GNU Make 4.3\n# Make data base\n".toList (Except.ok [])
      = Except.error Error.unexpectedEOF := by decide
  rw [e] at h
  cases h

/-- C3, amended: for every dump in which no line is exactly `# Files`
(including the empty dump), `run` yields no target: it fails with the error
"unexpected EOF", unless the scanner stops on a line of 65536 bytes or more
that is not the first line of the dump: then `run` yields zero targets and no
error when the Makefile opens. -/
theorem run_without_marker (parse : Str → Except Error Time) (out : Str)
    (file : Except Error Str) (h : filesMarker ∉ scanLines out) :
    (none ∉ scanCalls out ∨ scanLines out = [] →
      run parse out file = Except.error Error.unexpectedEOF) ∧
    (none ∈ scanCalls out → scanLines out ≠ [] →
      scan out = Except.ok (version out, []) ∧
      ∀ mk, run parse out (Except.ok mk) = Except.ok (version out, [])) := by
  have ht : filesMarker ∉ (scanLines out).tail := fun m => h (List.mem_of_mem_tail m)
  constructor
  · intro hno
    unfold run
    rw [scan_eof out ht hno]
  · intro hlong hne
    have hs := scan_overflow out ht hlong hne
    refine ⟨hs, ?_⟩
    intro mk
    unfold run
    rw [hs]
    rfl

/-- Witness of C3 (amended): the empty dump, and a dump whose second line has
65536 bytes. -/
theorem run_without_marker_witness :
    (filesMarker ∉ scanLines [] ∧
      run parseInLocation [] (Except.ok "all: ## everything".toList)
        = Except.error Error.unexpectedEOF) ∧
    (filesMarker ∉ scanLines ("# GNU Make 4.3".toList ++ '\n' :: (longLine ++ '\n' ::
        "all: a\n\n".toList)) ∧
      run parseInLocation
          ("# GNU Make 4.3".toList ++ '\n' :: (longLine ++ '\n' :: "all: a\n\n".toList))
          (Except.ok "all: ## everything".toList)
        = Except.ok (version ("# GNU Make 4.3".toList ++ '\n' :: (longLine ++ '\n' ::
            "all: a\n\n".toList)), [])) := by
  have hc : scanCalls ("# GNU Make 4.3".toList ++ '\n' :: (longLine ++ '\n' ::
      "all: a\n\n".toList))
      = [some "# GNU Make 4.3".toList, none,
          some (dropCR (takeBytes MaxScanTokenSize longLine))] := by
    unfold scanCalls
    rw [scanCalls_short _ _ (by decide) (by decide), scanCalls_long]
    rfl
  have hl : scanLines ("# GNU Make 4.3".toList ++ '\n' :: (longLine ++ '\n' ::
      "all: a\n\n".toList)) = ["# GNU Make 4.3".toList] := by
    unfold scanLines
    rw [hc]
    rfl
  have hm : filesMarker ∉ scanLines ("# GNU Make 4.3".toList ++ '\n' :: (longLine ++ '\n' ::
      "all: a\n\n".toList)) := by
    rw [hl]
    decide
  exact ⟨⟨by decide, (run_without_marker parseInLocation [] _ (by decide)).1
      (Or.inr (by decide))⟩,
    ⟨hm, ((run_without_marker parseInLocation _ (Except.ok "all: ## everything".toList) hm).2
      (by rw [hc]; simp) (by rw [hl]; simp)).2 _⟩⟩

/-- C4, as stated, fails in two ways.  In the dump `# Files`, blank line,
`all: a`, blank line, lines follow the marker, yet none is discarded and no
grouping starts: the first line is read as the version line and `run` returns
"unexpected EOF".  And when the line that follows the marker has 65536 bytes,
`run` returns "unexpected EOF" as well: the scanner does not deliver it. -/
theorem run_marker_first_line_no_grouping :
    (scanLines "# Files\n\nall: a\n\n".toList = [filesMarker, [], "all: a".toList, []] ∧
      run parseInLocation "# Files\n\nall: a\n\n".toList (Except.ok [])
        = Except.error Error.unexpectedEOF) ∧
    run parseInLocation
        ("# GNU Make 4.3".toList ++ '\n' :: ("# Files".toList ++ '\n' :: (longLine ++ '\n' ::
          "all: a\n\n".toList))) (Except.ok [])
      = Except.error Error.unexpectedEOF := by
  refine ⟨by decide, ?_⟩
  have hc : scanCalls ("# GNU Make 4.3".toList ++ '\n' :: ("# Files".toList ++ '\n' ::
      (longLine ++ '\n' :: "all: a\n\n".toList)))
      = [some "# GNU Make 4.3".toList, some "# Files".toList, none,
          some (dropCR (takeBytes MaxScanTokenSize longLine))] := by
    unfold scanCalls
    rw [scanCalls_short _ _ (by decide) (by decide),
      scanCalls_short _ _ (by decide) (by decide), scanCalls_long]
    rfl
  exact run_of_scan_error parseInLocation _ _ _ (scan_stop_after_marker _ _ _ hc)

/-- C4, amended: for every dump of which the scanner delivers a first line,
lines other than the marker, the marker `# Files` (the first `# Files` line
after the first line of the dump) and then the lines `after`: when it delivers
no line after the marker (the dump ends there, or the next line has 65536
bytes or more), `run` fails with the error "unexpected EOF" (and so produces
no target list); when it delivers a line `sep` after the marker, block
grouping starts right after `sep`, on the lines that follow it, with no block
under way and none kept. -/
theorem run_after_marker (parse : Str → Except Error Time) (out : Str)
    (file : Except Error Str) (v : Str) (pre after : List Str)
    (hscan : scanLines out = v :: (pre ++ filesMarker :: after))
    (hpre : filesMarker ∉ pre) :
    match after with
    | [] => run parse out file = Except.error Error.unexpectedEOF
    | _ :: rest =>
      scan out = Except.ok (strings.Replace1 "# ".toList [] v, readTargets rest ⟨[], []⟩ []) := by
  cases after with
  | nil =>
    show run parse out file = Except.error Error.unexpectedEOF
    unfold run
    rw [scan_marker_last out v pre hscan hpre]
  | cons sep rest =>
    exact scan_found out v pre sep rest hscan hpre

/-- Witness of C4: a dump that ends with the marker line, and a dump in which
the separator line and one block follow the marker. -/
theorem run_after_marker_witness :
    (scanLines "# GNU Make 4.3\n# Make data base\n# Files\n".toList
        = "# GNU Make 4.3".toList :: (["# Make data base".toList] ++ filesMarker :: []) ∧
      run parseInLocation "# GNU Make 4.3\n# Make data base\n# Files\n".toList (Except.ok [])
        = Except.error Error.unexpectedEOF) ∧
    (scanLines "# GNU Make 4.3\n# Files\n# stats\nall: a\n\n".toList
        = "# GNU Make 4.3".toList :: ([] ++ filesMarker ::
            ["# stats".toList, "all: a".toList, []]) ∧
      scan "# GNU Make 4.3\n# Files\n# stats\nall: a\n\n".toList
        = Except.ok ("GNU Make 4.3".toList, [⟨["all: a".toList], []⟩])) :=
  ⟨⟨by decide, run_after_marker parseInLocation
      "# GNU Make 4.3\n# Make data base\n# Files\n".toList (Except.ok [])
      "# GNU Make 4.3".toList ["# Make data base".toList] [] (by decide) (by decide)⟩,
    ⟨by decide, run_after_marker parseInLocation
      "# GNU Make 4.3\n# Files\n# stats\nall: a\n\n".toList (Except.ok [])
      "# GNU Make 4.3".toList [] ["# stats".toList, "all: a".toList, []]
      (by decide) (by decide)⟩⟩

/-- C5: for every dump whose lines are `# GNU Make 4.3`, `# Files`, one
separator line, `build: foo.o`, `#  Last modified 2024-01-02 03:04:05` and a
blank line, and for every Makefile text, `run` yields exactly one Target, with
`Name` `build`, `IsPhony` false and `Updated` 2024-01-02 03:04:05 local time. -/
theorem run_example_build (out mk sep : Str)
    (hscan : scanLines out = ["# GNU Make 4.3".toList, "# Files".toList, sep,
      "build: foo.o".toList, "#  Last modified 2024-01-02 03:04:05".toList, []]) :
    ∃ ver help, run parseInLocation out (Except.ok mk)
      = Except.ok (ver, [⟨"build".toList, help, false,
          ⟨2024, 1, 2, 3, 4, 5, 0, Location.Local⟩⟩]) := by
  have hs := scan_found out "# GNU Make 4.3".toList [] sep
    ["build: foo.o".toList, "#  Last modified 2024-01-02 03:04:05".toList, []] hscan (by simp)
  refine ⟨strings.Replace1 "# ".toList [] "# GNU Make 4.3".toList,
    helpOf (readComments (scanLines mk) (fun _ => none)) "build".toList, ?_⟩
  unfold run
  rw [hs]
  rfl

/-- Witness of C5: the dump with the separator line
`# files hash-table stats:` and a Makefile that documents `build`. -/
theorem run_example_build_witness :
    run parseInLocation
        "# GNU Make 4.3\n# Files\n# files hash-table stats:\nbuild: foo.o\n#  Last modified 2024-01-02 03:04:05\n\n".toList
        (Except.ok "build: foo.o ## compile\n".toList)
      = Except.ok ("GNU Make 4.3".toList, [⟨"build".toList, "compile".toList, false,
          ⟨2024, 1, 2, 3, 4, 5, 0, Location.Local⟩⟩]) ∧
    ∃ ver help, run parseInLocation
        "# GNU Make 4.3\n# Files\n# files hash-table stats:\nbuild: foo.o\n#  Last modified 2024-01-02 03:04:05\n\n".toList
        (Except.ok "build: foo.o ## compile\n".toList)
      = Except.ok (ver, [⟨"build".toList, help, false,
          ⟨2024, 1, 2, 3, 4, 5, 0, Location.Local⟩⟩]) :=
  ⟨by decide, run_example_build _ _ "# files hash-table stats:".toList (by decide)⟩

/-- C6: for a RawTarget with at least one line, `Name()` is the text of the
first line before its first `:` (the whole first line when it has no `:`);
for a RawTarget with no line, `Name()` is `# Not a target:`. -/
theorem Name_eq (l : Str) (ls : List Str) (h : Str) :
    RawTarget.Name ⟨l :: ls, h⟩ = l.takeWhile (fun c => c != ':') ∧
      RawTarget.Name ⟨[], h⟩ = "# Not a target:".toList :=
  ⟨Split_single_head ':' l, rfl⟩

/-- C7: `IsPhony()` is true if and only if some line of the RawTarget contains
the text `Phony target (prerequisite of .PHONY)`. -/
theorem IsPhony_iff (t : RawTarget) :
    t.IsPhony = true ↔ ∃ l ∈ t.Lines, "Phony target (prerequisite of .PHONY)".toList <:+: l := by
  unfold RawTarget.IsPhony
  rw [List.any_eq_true]
  constructor
  · rintro ⟨l, hl, hc⟩
    exact ⟨l, hl, (Contains_iff _ l).mp hc⟩
  · rintro ⟨l, hl, hc⟩
    exact ⟨l, hl, (Contains_iff _ l).mpr hc⟩

/-- C8, as stated, fails: in this dump the kept block `build` has a
"Last modified" line (its third line) whose text `long ago` does not parse,
yet `run` returns no error and delivers the Target list: `LastUpdate` reads
the first line that contains "Last modified" only. -/
theorem run_ignores_later_last_modified :
    scanLines
        "# GNU Make 4.3\n# Files\n\nbuild: foo.o\n#  Last modified 2024-01-02 03:04:05\n#  Last modified long ago\n\n".toList
      = "# GNU Make 4.3".toList :: ([] ++ filesMarker :: [] :: sectionLines
          [["build: foo.o".toList, "#  Last modified 2024-01-02 03:04:05".toList,
            "#  Last modified long ago".toList]] []) ∧
    kept (block ["build: foo.o".toList, "#  Last modified 2024-01-02 03:04:05".toList,
      "#  Last modified long ago".toList]) = true ∧
    strings.Contains "#  Last modified long ago".toList "Last modified".toList = true ∧
    parseInLocation (RawTarget.LastUpdate.date "#  Last modified long ago".toList)
      = Except.error (Error.parseError "long ago".toList) ∧
    run parseInLocation
        "# GNU Make 4.3\n# Files\n\nbuild: foo.o\n#  Last modified 2024-01-02 03:04:05\n#  Last modified long ago\n\n".toList
        (Except.ok [])
      = Except.ok ("GNU Make 4.3".toList,
          [⟨"build".toList, [], false, ⟨2024, 1, 2, 3, 4, 5, 0, Location.Local⟩⟩]) := by
  decide

/-- C8, amended: for every RawTarget `t` with no line containing
"Last modified", `LastUpdate()` returns the zero timestamp and no error; and
for every dump of which the scanner delivers the marker, a separator line and
the blocks `bs`, and every Makefile that opens, when the first line containing
"Last modified" of some kept block gives a date text the parser rejects,
`run` returns a parse error and no Target list: the error `LastUpdate()` gives
for the first kept block on which it fails. -/
theorem LastUpdate_absent_and_run_parse_error (parse : Str → Except Error Time)
    (t : RawTarget) (ht : ∀ x ∈ t.Lines, ¬ "Last modified".toList <:+: x)
    (out mk v : Str) (pre : List Str) (sep : Str) (bs : List (List Str)) (tail : List Str)
    (hscan : scanLines out = v :: (pre ++ filesMarker :: sep :: sectionLines bs tail))
    (hpre : filesMarker ∉ pre) (hbs : ∀ b ∈ bs, [] ∉ b) (htail : [] ∉ tail)
    (ls1 : List Str) (l : Str) (ls2 : List Str) (hb : ls1 ++ l :: ls2 ∈ bs)
    (hk : kept (block (ls1 ++ l :: ls2)) = true)
    (h1 : ∀ x ∈ ls1, ¬ "Last modified".toList <:+: x) (h2 : "Last modified".toList <:+: l)
    (e : Error) (he : parse (RawTarget.LastUpdate.date l) = Except.error e) :
    t.LastUpdate parse = Except.ok Time.zero ∧
    ∃ ks1 k ks2 e2, (bs.map block).filter kept = ks1 ++ k :: ks2 ∧
      (∀ x ∈ ks1, ∃ u, x.LastUpdate parse = Except.ok u) ∧
      k.LastUpdate parse = Except.error e2 ∧
      run parse out (Except.ok mk) = Except.error e2 := by
  refine ⟨LastUpdate_go_none parse t.Lines ht, ?_⟩
  have hfail : ∃ k ∈ (bs.map block).filter kept, ∃ e2, k.LastUpdate parse = Except.error e2 := by
    refine ⟨block (ls1 ++ l :: ls2), ?_, e, ?_⟩
    · exact List.mem_filter.mpr ⟨List.mem_map.mpr ⟨_, hb, rfl⟩, hk⟩
    · show RawTarget.LastUpdate.go parse (ls1 ++ l :: ls2) = Except.error e
      rw [LastUpdate_go_first parse l ls2 h2 ls1 h1, he]
  obtain ⟨ks1, k, ks2, e2, hks, hok, hke⟩ := exists_first_error (RawTarget.LastUpdate parse) _ hfail
  refine ⟨ks1, k, ks2, e2, hks, hok, hke, ?_⟩
  rw [run_of_section parse out mk v pre sep bs tail hscan hpre hbs htail, hks,
    assemble_error parse _ k ks2 e2 hke ks1 [] hok]

/-- Witness of C8 (amended): a block without "Last modified" line, and a dump
whose second kept block has an unparseable first "Last modified" line. -/
theorem LastUpdate_absent_and_run_parse_error_witness :
    RawTarget.LastUpdate parseInLocation ⟨["all: a".toList, "#  Phony target".toList], []⟩
      = Except.ok Time.zero ∧
    ∃ ks1 k ks2 e2,
      ([["all: a".toList], ["build: foo.o".toList, "#  Last modified yesterday evening".toList]].map
          block).filter kept = ks1 ++ k :: ks2 ∧
      (∀ x ∈ ks1, ∃ u, x.LastUpdate parseInLocation = Except.ok u) ∧
      k.LastUpdate parseInLocation = Except.error e2 ∧
      run parseInLocation
        "# GNU Make 4.3\n# Files\n\nall: a\n\nbuild: foo.o\n#  Last modified yesterday evening\n\n".toList
        (Except.ok "all: ## everything".toList) = Except.error e2 :=
  LastUpdate_absent_and_run_parse_error parseInLocation
    ⟨["all: a".toList, "#  Phony target".toList], []⟩ (by decide)
    "# GNU Make 4.3\n# Files\n\nall: a\n\nbuild: foo.o\n#  Last modified yesterday evening\n\n".toList
    "all: ## everything".toList "# GNU Make 4.3".toList [] []
    [["all: a".toList], ["build: foo.o".toList, "#  Last modified yesterday evening".toList]] []
    (by decide) (by decide) (by decide) (by decide)
    ["build: foo.o".toList] "#  Last modified yesterday evening".toList []
    (by decide) (by decide) (by decide) (by decide)
    (Error.parseError "yesterday evening".toList) (by decide)

/-- C9, as stated, fails: on a "Last modified" line that ends with a space, or
whose date and time are separated by a tab, the last two whitespace-separated
tokens joined by a space are `2024-01-02 03:04:05`, which parses, but
`LastUpdate()` hands the parser another text and returns a parse error. -/
theorem LastUpdate_not_whitespace_tokens :
    lastTwoFields "#  Last modified 2024-01-02 03:04:05 ".toList = "2024-01-02 03:04:05".toList ∧
    RawTarget.LastUpdate parseInLocation ⟨["#  Last modified 2024-01-02 03:04:05 ".toList], []⟩
      = Except.error (Error.parseError "03:04:05 ".toList) ∧
    lastTwoFields "#  Last modified 2024-01-02\t03:04:05".toList = "2024-01-02 03:04:05".toList ∧
    RawTarget.LastUpdate parseInLocation ⟨["#  Last modified 2024-01-02\t03:04:05".toList], []⟩
      = Except.error (Error.parseError "modified 2024-01-02\t03:04:05".toList) ∧
    parseInLocation "2024-01-02 03:04:05".toList
      = Except.ok ⟨2024, 1, 2, 3, 4, 5, 0, Location.Local⟩ := by
  decide

/-- C9, amended: for every RawTarget that has a line containing
"Last modified", with `l` the first such line, the text `LastUpdate()` hands
to the timestamp parser is the last two of the pieces into which the single
space character cuts `l` (pieces that hold no space and, joined by single
spaces, give `l` back), joined by a single space. -/
theorem LastUpdate_date_text (parse : Str → Except Error Time) (t : RawTarget)
    (ls1 : List Str) (l : Str) (ls2 : List Str) (hl : t.Lines = ls1 ++ l :: ls2)
    (h1 : ∀ x ∈ ls1, ¬ "Last modified".toList <:+: x) (h2 : "Last modified".toList <:+: l) :
    ∃ ps a b, strings.Split l " ".toList = ps ++ [a, b] ∧
      List.intercalate " ".toList (ps ++ [a, b]) = l ∧
      (∀ p ∈ ps ++ [a, b], ' ' ∉ p) ∧
      t.LastUpdate parse = parse (a ++ " ".toList ++ b) := by
  obtain ⟨ps, a, b, hps, hd⟩ := date_eq_last_two l h2
  refine ⟨ps, a, b, hps, ?_, ?_, ?_⟩
  · rw [← hps]
    exact Split_single_intercalate ' ' l
  · rw [← hps]
    exact Split_single_not_mem ' ' l
  · unfold RawTarget.LastUpdate
    rw [hl, LastUpdate_go_first parse l ls2 h2 ls1 h1, hd]

/-- Witness of C9 (amended): the block of the example of the specification. -/
theorem LastUpdate_date_text_witness :
    ∃ ps a b, strings.Split "#  Last modified 2024-01-02 03:04:05".toList " ".toList
        = ps ++ [a, b] ∧
      List.intercalate " ".toList (ps ++ [a, b]) = "#  Last modified 2024-01-02 03:04:05".toList ∧
      (∀ p ∈ ps ++ [a, b], ' ' ∉ p) ∧
      RawTarget.LastUpdate parseInLocation
          ⟨["build: foo.o".toList, "#  Last modified 2024-01-02 03:04:05".toList], []⟩
        = parseInLocation (a ++ " ".toList ++ b) :=
  LastUpdate_date_text parseInLocation
    ⟨["build: foo.o".toList, "#  Last modified 2024-01-02 03:04:05".toList], []⟩
    ["build: foo.o".toList] "#  Last modified 2024-01-02 03:04:05".toList [] rfl
    (by decide) (by decide)

/-- C10, as stated, fails: for the Makefile line `foo: ## build ###fast` the
text after the last occurrence of `##` in the indexed value is `fast`, but the
Help of target `foo` is `#fast`: `strings.Split` cuts at the occurrences of
`##` it meets from left to right, and of `###` it takes the first two
characters. -/
theorem run_help_overlapping_markers :
    readComments (scanLines "foo: ## build ###fast\n".toList) (fun _ => none) "foo".toList
      = some " ## build ###fast".toList ∧
    strings.TrimSpace (afterLast "##".toList " ## build ###fast".toList) = "fast".toList ∧
    run parseInLocation "# GNU Make 4.3\n# Files\n\nfoo: a\n\n".toList
        (Except.ok "foo: ## build ###fast\n".toList)
      = Except.ok ("GNU Make 4.3".toList, [⟨"foo".toList, "#fast".toList, false, Time.zero⟩]) := by
  decide

/-- C10, amended: for every kept target whose name is a key of the comment
index, with `c` the indexed raw string, the Target's Help is the
whitespace-trimmed last element of `strings.Split(c, "##")`; whenever `###`
does not occur in `c` this is the trimmed text that follows the last
occurrence of `##` in `c` (the whole trimmed string if it has no `##`); and
the indexed value ` ## build stuff` of the file line `foo: ## build stuff`
gives the help text exactly `build stuff`. -/
theorem run_help_of_comment (parse : Str → Except Error Time) (out mk ver : Str)
    (targets : List Target) (h : run parse out (Except.ok mk) = Except.ok (ver, targets))
    (t : Target) (ht : t ∈ targets) (c : Str)
    (hc : readComments (scanLines mk) (fun _ => none) t.Name = some c) :
    t.Help = strings.TrimSpace
        ((strings.Split c "##".toList).getD ((strings.Split c "##".toList).length - 1) []) ∧
    (¬ "###".toList <:+: c → t.Help = strings.TrimSpace (afterLast "##".toList c)) ∧
    (c = " ## build stuff".toList → t.Help = "build stuff".toList) := by
  have hh : t.Help = strings.TrimSpace
      ((strings.Split c "##".toList).getD ((strings.Split c "##".toList).length - 1) []) := by
    rw [run_help parse out mk ver targets h t ht]
    unfold helpOf
    rw [hc]
  refine ⟨hh, ?_, ?_⟩
  · intro hno
    rw [hh]
    unfold strings.Split
    rw [Split_hh_last_eq_afterLast c.length c (Nat.le_refl _) hno]
  · intro e
    rw [hh, e]
    decide

/-- Witness of C10 (amended): the file line `foo: ## build stuff`, and a line
whose value contains `##` twice. -/
theorem run_help_of_comment_witness :
    (run parseInLocation "# GNU Make 4.3\n# Files\n\nfoo: a\n\n".toList
        (Except.ok "foo: ## build stuff\n".toList)
      = Except.ok ("GNU Make 4.3".toList,
          [⟨"foo".toList, "build stuff".toList, false, Time.zero⟩]) ∧
      (⟨"foo".toList, "build stuff".toList, false, Time.zero⟩ : Target).Help
        = "build stuff".toList) ∧
    (run parseInLocation "# GNU Make 4.3\n# Files\n\nfoo: a\n\n".toList
        (Except.ok "foo: a ## old text ## new text \n".toList)
      = Except.ok ("GNU Make 4.3".toList,
          [⟨"foo".toList, "new text".toList, false, Time.zero⟩]) ∧
      (⟨"foo".toList, "new text".toList, false, Time.zero⟩ : Target).Help
        = strings.TrimSpace (afterLast "##".toList " a ## old text ## new text ".toList)) :=
  ⟨⟨by decide,
      (run_help_of_comment parseInLocation "# GNU Make 4.3\n# Files\n\nfoo: a\n\n".toList
        "foo: ## build stuff\n".toList "GNU Make 4.3".toList
        [⟨"foo".toList, "build stuff".toList, false, Time.zero⟩] (by decide)
        ⟨"foo".toList, "build stuff".toList, false, Time.zero⟩ (by decide)
        " ## build stuff".toList (by decide)).2.2 rfl⟩,
    ⟨by decide,
      (run_help_of_comment parseInLocation "# GNU Make 4.3\n# Files\n\nfoo: a\n\n".toList
        "foo: a ## old text ## new text \n".toList "GNU Make 4.3".toList
        [⟨"foo".toList, "new text".toList, false, Time.zero⟩] (by decide)
        ⟨"foo".toList, "new text".toList, false, Time.zero⟩ (by decide)
        " a ## old text ## new text ".toList (by decide)).2.1 (by decide)⟩⟩

/-- C11: for every list of lines of the Makefile and every key `k`, the comment
index built by the loop of `run` maps `k` to `v` exactly when the last line
that contains `##`, is cut by `:` into exactly two parts and has `k` as first
part has `v` as second part; and `k` is absent from the index exactly when no
line is of that kind, so that lines without `##` and lines with no or several
`:` contribute nothing. -/
theorem readComments_last_entry (lines : List Str) (k : Str) :
    (∀ v, readComments lines (fun _ => none) k = some v ↔
      ∃ l1 line l2, lines = l1 ++ line :: l2 ∧ IsEntry line k v ∧
        ∀ x ∈ l2, ∀ w, ¬ IsEntry x k w) ∧
    (readComments lines (fun _ => none) k = none ↔ ∀ x ∈ lines, ∀ w, ¬ IsEntry x k w) := by
  refine ⟨fun v => ⟨?_, ?_⟩, ⟨readComments_none_inv k lines _, ?_⟩⟩
  · intro h
    rcases readComments_some_inv k v lines _ h with hd | ⟨hm, _⟩
    · exact hd
    · cases hm
  · rintro ⟨l1, line, l2, hl, he, hno⟩
    rw [hl, readComments_append, readComments_cons, readComments_of_no_entry k l2 _ hno,
      readComments_single_entry line k v _ he]
  · intro hno
    rw [readComments_of_no_entry k lines _ hno]

/-- C12: for every dump and every Makefile text, when `run` delivers its
Target list the Targets correspond one to one, in order, to the kept blocks
(the elements of `rtargets`): each Target has the `Name()` and `IsPhony()` of
its block and as `Updated` the value `LastUpdate()` returns for it, whether or
not the block has a comment, and its `Help` is the empty string when the name
of the block is not a key of the comment index. -/
theorem run_targets_inherit (parse : Str → Except Error Time) (out mk ver0 : Str)
    (rtargets : List RawTarget) (hs : scan out = Except.ok (ver0, rtargets))
    (ver : Str) (targets : List Target)
    (h : run parse out (Except.ok mk) = Except.ok (ver, targets)) :
    List.Forall₂ (fun (b : RawTarget) (t : Target) =>
        t.Name = b.Name ∧ t.IsPhony = b.IsPhony ∧ b.LastUpdate parse = Except.ok t.Updated ∧
        (readComments (scanLines mk) (fun _ => none) b.Name = none → t.Help = []))
      rtargets targets := by
  obtain ⟨rtargets2, mk2, hs2, hmk, hf⟩ := run_inv parse out _ ver targets h
  cases hmk
  rw [hs] at hs2
  simp only [Except.ok.injEq, Prod.mk.injEq] at hs2
  rw [hs2.2]
  refine hf.imp ?_
  intro b t hbt
  refine ⟨hbt.1, hbt.2.2.1, hbt.2.2.2, ?_⟩
  intro hnone
  rw [hbt.2.1]
  unfold helpOf
  rw [hnone]

/-- Witness of C12: two kept blocks, of which only `all` is documented in the
Makefile. -/
theorem run_targets_inherit_witness :
    List.Forall₂ (fun (b : RawTarget) (t : Target) =>
        t.Name = b.Name ∧ t.IsPhony = b.IsPhony ∧
        b.LastUpdate parseInLocation = Except.ok t.Updated ∧
        (readComments (scanLines "all: ## everything".toList) (fun _ => none) b.Name = none →
          t.Help = []))
      [⟨["all: a".toList, "#  Phony target (prerequisite of .PHONY).".toList], []⟩,
        ⟨["build: foo.o".toList, "#  Last modified 2024-01-02 03:04:05".toList], []⟩]
      [⟨"all".toList, "everything".toList, true, Time.zero⟩,
        ⟨"build".toList, [], false, ⟨2024, 1, 2, 3, 4, 5, 0, Location.Local⟩⟩] :=
  run_targets_inherit parseInLocation
    "# GNU Make 4.3\n# Files\n\nall: a\n#  Phony target (prerequisite of .PHONY).\n\n.PHONY: all\n\nbuild: foo.o\n#  Last modified 2024-01-02 03:04:05\n\n".toList
    "all: ## everything".toList "GNU Make 4.3".toList _ (by decide)
    "GNU Make 4.3".toList _ (by decide)

/-- C13: for every dump with the marker found whose target section ends with
the lines `tail` of an unterminated block (no blank line after them), `run`
gives the same result as for the dump with the lines `tail` removed. -/
theorem run_unterminated_block (parse : Str → Except Error Time) (out out2 : Str)
    (file : Except Error Str) (v : Str) (pre : List Str) (sep : Str)
    (bs : List (List Str)) (tail : List Str)
    (hscan : scanLines out = v :: (pre ++ filesMarker :: sep :: sectionLines bs tail))
    (hscan2 : scanLines out2 = v :: (pre ++ filesMarker :: sep :: sectionLines bs []))
    (hpre : filesMarker ∉ pre) (hbs : ∀ b ∈ bs, [] ∉ b) (htail : [] ∉ tail) :
    run parse out file = run parse out2 file := by
  unfold run
  rw [scan_of_section out v pre sep bs tail hscan hpre hbs htail,
    scan_of_section out2 v pre sep bs [] hscan2 hpre hbs (by simp)]

/-- Witness of C13: a dump that ends in the middle of the block `clean`. -/
theorem run_unterminated_block_witness :
    run parseInLocation
        "# GNU Make 4.3\n# Files\n\nall: a\n\nclean:\n#  Phony target (prerequisite of .PHONY).".toList
        (Except.ok "all: ## everything".toList)
      = run parseInLocation "# GNU Make 4.3\n# Files\n\nall: a\n\n".toList
        (Except.ok "all: ## everything".toList) ∧
    run parseInLocation "# GNU Make 4.3\n# Files\n\nall: a\n\n".toList
        (Except.ok "all: ## everything".toList)
      = Except.ok ("GNU Make 4.3".toList,
          [⟨"all".toList, "everything".toList, false, Time.zero⟩]) :=
  ⟨run_unterminated_block parseInLocation
    "# GNU Make 4.3\n# Files\n\nall: a\n\nclean:\n#  Phony target (prerequisite of .PHONY).".toList
    "# GNU Make 4.3\n# Files\n\nall: a\n\n".toList (Except.ok "all: ## everything".toList)
    "# GNU Make 4.3".toList [] [] [["all: a".toList]]
    ["clean:".toList, "#  Phony target (prerequisite of .PHONY).".toList]
    (by decide) (by decide) (by decide) (by decide) (by decide), by decide⟩

/-- C14, as stated, fails: the block whose first line is `: x` has the empty
name, which starts with neither `#` nor `.PHONY`; the scanner keeps it and
`run` delivers a Target with an empty `Name`. -/
theorem run_keeps_empty_name :
    scan "# GNU Make 4.3\n# Files\n\n: x\n\n".toList
      = Except.ok ("GNU Make 4.3".toList, [⟨[": x".toList], []⟩]) ∧
    RawTarget.Name ⟨[": x".toList], []⟩ = [] ∧
    run parseInLocation "# GNU Make 4.3\n# Files\n\n: x\n\n".toList (Except.ok [])
      = Except.ok ("GNU Make 4.3".toList, [⟨[], [], false, Time.zero⟩]) := by
  decide

/-- C14, amended: for every dump, every element of `rtargets` has a name that
starts with neither `#` nor `.PHONY`, and this name is empty exactly when the
first line of the block starts with `:`; every output Target has the name of
an element of `rtargets`. -/
theorem scan_names (parse : Str → Except Error Time) (out : Str) (file : Except Error Str)
    (ver : Str) (rtargets : List RawTarget) (hs : scan out = Except.ok (ver, rtargets))
    (ver2 : Str) (targets : List Target)
    (h : run parse out file = Except.ok (ver2, targets)) :
    (∀ r ∈ rtargets, strings.HasPrefix r.Name "#".toList = false ∧
      strings.HasPrefix r.Name ".PHONY".toList = false ∧
      (r.Name = [] ↔ ∃ rest ls, r.Lines = (':' :: rest) :: ls)) ∧
    (∀ t ∈ targets, ∃ r ∈ rtargets, t.Name = r.Name) := by
  constructor
  · intro r hr
    have hk : kept r = true := scan_kept out ver rtargets hs r hr
    obtain ⟨_, ls0, hls0⟩ := scan_inv out ver rtargets hs
    have hne : ∀ l ∈ r.Lines, l ≠ [] := by
      rw [hls0] at hr
      exact readTargets_lines_ne_nil ls0 ⟨[], []⟩ [] (by simp) (by simp) r hr
    have hk2 := hk
    unfold kept at hk2
    simp only [Bool.and_eq_true, Bool.not_eq_true'] at hk2
    refine ⟨hk2.1, hk2.2, ?_⟩
    obtain ⟨lines, help⟩ := r
    cases lines with
    | nil =>
      have hf : kept ⟨[], help⟩ = false := rfl
      rw [hf] at hk
      cases hk
    | cons l ls =>
      have hl : l ≠ [] := hne l (List.mem_cons_self _ _)
      have hn : RawTarget.Name ⟨l :: ls, help⟩ = l.takeWhile (fun c => c != ':') :=
        Split_single_head ':' l
      rw [hn]
      cases l with
      | nil => exact absurd rfl hl
      | cons c rest =>
        constructor
        · intro htw
          by_cases hc : c = ':'
          · exact ⟨rest, ls, by rw [hc]⟩
          · have : (c != ':') = true := by simpa using hc
            rw [List.takeWhile_cons, this] at htw
            simp at htw
        · rintro ⟨rest2, ls2, he⟩
          simp only [RawTarget.mk.injEq, List.cons.injEq] at he
          rw [he.1.1]
          simp
  · obtain ⟨rtargets2, mk, hs2, _, hf⟩ := run_inv parse out file ver2 targets h
    rw [hs] at hs2
    simp only [Except.ok.injEq, Prod.mk.injEq] at hs2
    rw [← hs2.2] at hf
    intro t ht
    obtain ⟨r, hr, hrt⟩ := forall2_exists_left hf t ht
    exact ⟨r, hr, hrt.1⟩

/-- Witness of C14 (amended): a dump with a block named `all` and a block with
the empty name. -/
theorem scan_names_witness :
    (∀ r ∈ [(⟨["all: a".toList], []⟩ : RawTarget), ⟨[": x".toList], []⟩],
      strings.HasPrefix r.Name "#".toList = false ∧
      strings.HasPrefix r.Name ".PHONY".toList = false ∧
      (r.Name = [] ↔ ∃ rest ls, r.Lines = (':' :: rest) :: ls)) ∧
    (∀ t ∈ [(⟨"all".toList, [], false, Time.zero⟩ : Target), ⟨[], [], false, Time.zero⟩],
      ∃ r ∈ [(⟨["all: a".toList], []⟩ : RawTarget), ⟨[": x".toList], []⟩], t.Name = r.Name) :=
  scan_names parseInLocation "# GNU Make 4.3\n# Files\n\nall: a\n\n: x\n\n".toList (Except.ok [])
    "GNU Make 4.3".toList _ (by decide) "GNU Make 4.3".toList _ (by decide)

/-- C15, as stated, fails: the first line `GNU # Make 4.3` does not start with
`# `, yet the version string is not that line unchanged: the `# ` inside it is
removed. -/
theorem version_inner_marker_removed :
    strings.HasPrefix "GNU # Make 4.3".toList "# ".toList = false ∧
    version "GNU # Make 4.3\n# Files\n\n".toList = "GNU Make 4.3".toList ∧
    run parseInLocation "GNU # Make 4.3\n# Files\n\n".toList (Except.ok [])
      = Except.ok ("GNU Make 4.3".toList, []) := by
  decide

/-- C15, amended: for every non-empty dump, with first line `l`, the version
string of `run` is `l` with its first occurrence of `# ` removed, wherever it
stands (`strings.Replace(l, "# ", "", 1)`): `l` without its leading `# ` when
`l` starts with `# `, and `l` unchanged when `# ` does not occur in `l`; it is
the version string that a successful `run` returns. -/
theorem version_eq (out l : Str) (ls : List Str) (h : scanLines out = l :: ls) :
    version out = strings.Replace1 "# ".toList [] l ∧
    (∀ rest, l = "# ".toList ++ rest → version out = rest) ∧
    (∀ a b, l = a ++ "# ".toList ++ b → ¬ "# ".toList <:+: a ++ ['#'] → version out = a ++ b) ∧
    (¬ "# ".toList <:+: l → version out = l) ∧
    (∀ parse file ver targets, run parse out file = Except.ok (ver, targets) →
      ver = version out) := by
  have hv : version out = strings.Replace1 "# ".toList [] l := by
    unfold version
    rw [h]
  refine ⟨hv, ?_, ?_, ?_, ?_⟩
  · intro rest hl
    rw [hv, hl]
    exact Replace1_hash_first rest [] (by decide)
  · intro a b hl hno
    rw [hv, hl]
    exact Replace1_hash_first b a hno
  · intro hno
    rw [hv]
    exact Replace1_of_not_infix _ _ l hno
  · intro parse file ver targets hr
    obtain ⟨rtargets, _, hs, _, _⟩ := run_inv parse out file ver targets hr
    exact (scan_inv out ver rtargets hs).1

/-- Witness of C15 (amended): the first line `# GNU Make 4.3`. -/
theorem version_eq_witness :
    version "# GNU Make 4.3\n# Files\n\n".toList
      = strings.Replace1 "# ".toList [] "# GNU Make 4.3".toList ∧
    version "# GNU Make 4.3\n# Files\n\n".toList = "GNU Make 4.3".toList :=
  ⟨(version_eq "# GNU Make 4.3\n# Files\n\n".toList "# GNU Make 4.3".toList
      ["# Files".toList, []] (by decide)).1,
    (version_eq "# GNU Make 4.3\n# Files\n\n".toList "# GNU Make 4.3".toList
      ["# Files".toList, []] (by decide)).2.1 "GNU Make 4.3".toList (by decide)⟩

/-- C16: for every query and every index within range, with `t` the target at
that index, the searcher returns true if and only if the query, lower-cased
and with all space characters removed, is a substring of the `Name` of `t`
lower-cased and with all space characters removed; in particular (lower-casing
leaving the space character a space) an empty or all-spaces query matches
every target. -/
theorem searcher_iff (lower : Char → Char) (targets : List Target) (input : Str)
    (index : Nat) (t : Target) (h : targets[index]? = some t) :
    ∃ b, searcher lower targets input index = some b ∧
      (b = true ↔ normalize lower input <:+: normalize lower t.Name) ∧
      (lower ' ' = ' ' → (∀ c ∈ input, c = ' ') → b = true) := by
  have hb : searcher lower targets input index
      = some (strings.Contains (normalize lower t.Name) (normalize lower input)) := by
    unfold searcher
    rw [h]
    simp only [strings.ReplaceAll, strings.ToLower, ReplaceAll_space]
    rfl
  refine ⟨_, hb, Contains_iff _ _, ?_⟩
  intro hsp hall
  have hn : normalize lower input = [] := by
    unfold normalize
    rw [List.filter_eq_nil_iff]
    intro a ha
    obtain ⟨c, hc, rfl⟩ := List.mem_map.mp ha
    rw [hall c hc, hsp]
    decide
  rw [hn]
  exact (Contains_iff _ _).mpr List.nil_infix

/-- Witness of C16: the query `D a` matches the target `Build All`, with the
lower-casing of ASCII letters. -/
theorem searcher_iff_witness :
    ∃ b, searcher Char.toLower [⟨"Build All".toList, [], false, Time.zero⟩] "D a".toList 0
        = some b ∧
      (b = true ↔ normalize Char.toLower "D a".toList
        <:+: normalize Char.toLower
          (⟨"Build All".toList, [], false, Time.zero⟩ : Target).Name) ∧
      (Char.toLower ' ' = ' ' → (∀ c ∈ "D a".toList, c = ' ') → b = true) :=
  searcher_iff Char.toLower [⟨"Build All".toList, [], false, Time.zero⟩] "D a".toList 0
    ⟨"Build All".toList, [], false, Time.zero⟩ rfl

/-- C17: a block with zero lines is filtered out, and for every dump with the
marker found, a blank line inserted directly after the separator line
(`xs = []`) or directly after a blank line of the target section (`xs` ends
with a blank line) leaves the list of kept blocks, and the result of `run`,
unchanged. -/
theorem run_extra_blank_line (parse : Str → Except Error Time) (out out2 : Str)
    (file : Except Error Str) (v : Str) (pre : List Str) (sep : Str) (xs ys : List Str)
    (hscan : scanLines out = v :: (pre ++ filesMarker :: sep :: (xs ++ ys)))
    (hscan2 : scanLines out2 = v :: (pre ++ filesMarker :: sep :: (xs ++ [] :: ys)))
    (hpre : filesMarker ∉ pre) (hx : xs = [] ∨ ∃ xs0, xs = xs0 ++ [[]]) :
    kept (block []) = false ∧ scan out2 = scan out ∧
      run parse out2 file = run parse out file := by
  have hs : scan out2 = scan out := by
    rw [scan_found out v pre sep _ hscan hpre, scan_found out2 v pre sep _ hscan2 hpre,
      readTargets_extra_blank xs ys hx]
  refine ⟨rfl, hs, ?_⟩
  unfold run
  rw [hs]

/-- Witness of C17: a second blank line after the block `all`. -/
theorem run_extra_blank_line_witness :
    kept (block []) = false ∧
    scan "# GNU Make 4.3\n# Files\n\nall: a\n\n\nclean:\n\n".toList
      = scan "# GNU Make 4.3\n# Files\n\nall: a\n\nclean:\n\n".toList ∧
    run parseInLocation "# GNU Make 4.3\n# Files\n\nall: a\n\n\nclean:\n\n".toList (Except.ok [])
      = run parseInLocation "# GNU Make 4.3\n# Files\n\nall: a\n\nclean:\n\n".toList
          (Except.ok []) :=
  run_extra_blank_line parseInLocation "# GNU Make 4.3\n# Files\n\nall: a\n\nclean:\n\n".toList
    "# GNU Make 4.3\n# Files\n\nall: a\n\n\nclean:\n\n".toList (Except.ok [])
    "# GNU Make 4.3".toList [] [] ["all: a".toList, []] ["clean:".toList, []]
    (by decide) (by decide) (by decide) (Or.inr ⟨["all: a".toList], rfl⟩)

/-- C18: a line that contains "Last modified" is cut by the single space into
at least two parts, so that `parts[len(parts)-2]` and `parts[len(parts)-1]`
of `LastUpdate` exist; every line is cut by `:` into at least one part
(`parts[0]` of `Name`), and every comment value by `##` into at least one
part (`parts[len(parts)-1]` of the help lookup). -/
theorem split_parts_in_range (l : Str) (h : "Last modified".toList <:+: l) (line c : Str) :
    2 ≤ (strings.Split l " ".toList).length ∧
    1 ≤ (strings.Split line ":".toList).length ∧
    1 ≤ (strings.Split c "##".toList).length := by
  refine ⟨?_, ?_, ?_⟩
  · have hmem : ' ' ∈ l := by
      have : ' ' ∈ "Last modified".toList := by decide
      exact h.subset this
    have h1 : (strings.Split l " ".toList).length = l.count ' ' + 1 := Split_single_length ' ' l
    have h2 : 0 < l.count ' ' := List.count_pos_iff.mpr hmem
    omega
  · exact List.length_pos.mpr (Split_go_ne_nil _ _ _)
  · exact List.length_pos.mpr (Split_go_ne_nil _ _ _)

/-- Witness of C18: the shortest line that contains "Last modified", an empty
first line and an empty comment value. -/
theorem split_parts_in_range_witness :
    2 ≤ (strings.Split "Last modified".toList " ".toList).length ∧
    1 ≤ (strings.Split [] ":".toList).length ∧
    1 ≤ (strings.Split [] "##".toList).length :=
  split_parts_in_range "Last modified".toList (by decide) [] []

/-- C19: whenever `run` delivers a Target list, the `Help` of no Target in it
contains the marker `##`. -/
theorem run_help_no_marker (parse : Str → Except Error Time) (out : Str)
    (file : Except Error Str) (ver : Str) (targets : List Target)
    (h : run parse out file = Except.ok (ver, targets)) :
    ∀ t ∈ targets, ¬ "##".toList <:+: t.Help := by
  obtain ⟨rtargets, mk, _, _, hf⟩ := run_inv parse out file ver targets h
  intro t ht
  obtain ⟨r, _, hrt⟩ := forall2_exists_left hf t ht
  rw [hrt.2.1]
  exact helpOf_no_marker _ _

/-- Witness of C19: a comment that holds `##` twice and `###` once. -/
theorem run_help_no_marker_witness :
    run parseInLocation "# GNU Make 4.3\n# Files\n\nfoo: a\n\n".toList
        (Except.ok "foo: a ## old ## new ###fast\n".toList)
      = Except.ok ("GNU Make 4.3".toList, [⟨"foo".toList, "#fast".toList, false, Time.zero⟩]) ∧
    ∀ t ∈ [(⟨"foo".toList, "#fast".toList, false, Time.zero⟩ : Target)],
      ¬ "##".toList <:+: t.Help :=
  ⟨by decide, run_help_no_marker parseInLocation "# GNU Make 4.3\n# Files\n\nfoo: a\n\n".toList
    (Except.ok "foo: a ## old ## new ###fast\n".toList) "GNU Make 4.3".toList _ (by decide)⟩

/-- C20: for every dump whose first line is exactly `# Files` and that has no
later line equal to `# Files`, the first line is consumed as the version line
and never compared with the marker: no block that follows it is turned into a
target (a Target list that `run` delivers is empty), `run` fails with the
error "unexpected EOF" when no line reaches 65536 bytes, and `run` gives the
same targets or the same error as for the dump with any other first line `x`
(a dump with no marker at all when `x` is not `# Files`). -/
theorem run_marker_only_on_first_line (parse : Str → Except Error Time) (out : Str)
    (file : Except Error Str) (ls : List Str) (h : scanLines out = filesMarker :: ls)
    (hls : filesMarker ∉ ls) :
    (∀ ver targets, run parse out file = Except.ok (ver, targets) → targets = []) ∧
    (none ∉ scanCalls out → run parse out file = Except.error Error.unexpectedEOF) ∧
    (∀ out2 x, scanCalls out2 = some x :: (scanCalls out).tail →
      (run parse out2 file).map Prod.snd = (run parse out file).map Prod.snd) := by
  have ht : filesMarker ∉ (scanLines out).tail := by
    rw [h]
    exact hls
  refine ⟨?_, ?_, ?_⟩
  · intro ver targets hr
    obtain ⟨rtargets, mk, hs, _, hf⟩ := run_inv parse out file ver targets hr
    rcases scanCalls_cases out with ⟨hno, _⟩ | ⟨hlong, _⟩
    · rw [scan_eof out ht (Or.inl hno)] at hs
      cases hs
    · rw [scan_overflow out ht hlong (by rw [h]; simp)] at hs
      simp only [Except.ok.injEq, Prod.mk.injEq] at hs
      rw [← hs.2] at hf
      cases hf
      rfl
  · intro hno
    unfold run
    rw [scan_eof out ht (Or.inl hno)]
  · intro out2 x hx
    unfold run
    rw [scan_eq out, scan_eq out2, hx, List.tail_cons]
    cases skipToFiles (scanCalls out).tail with
    | nil => rfl
    | cons y ys =>
      cases y with
      | none => rfl
      | some l =>
        cases file with
        | error e => rfl
        | ok content =>
          simp only []
          cases assemble parse (readComments (scanLines content) (fun _ => none))
            (readTargets (readLoop ys) ⟨[], []⟩ []) [] <;> rfl

/-- Witness of C20: the marker as first line, followed by a separator line
and the block `all`; the dump with the first line `# GNU Make 4.3` in its
place has no marker at all. -/
theorem run_marker_only_on_first_line_witness :
    (∀ ver targets, run parseInLocation "# Files\n\nall: a\n\n".toList (Except.ok [])
      = Except.ok (ver, targets) → targets = []) ∧
    (none ∉ scanCalls "# Files\n\nall: a\n\n".toList →
      run parseInLocation "# Files\n\nall: a\n\n".toList (Except.ok [])
        = Except.error Error.unexpectedEOF) ∧
    (∀ out2 x, scanCalls out2 = some x :: (scanCalls "# Files\n\nall: a\n\n".toList).tail →
      (run parseInLocation out2 (Except.ok [])).map Prod.snd
        = (run parseInLocation "# Files\n\nall: a\n\n".toList (Except.ok [])).map Prod.snd) :=
  run_marker_only_on_first_line parseInLocation "# Files\n\nall: a\n\n".toList (Except.ok [])
    [[], "all: a".toList, []] (by decide) (by decide)

end MakeSelect
